import Mathlib

/-!
Shallow embedding of the `shuffle` package (ElGamal decrypting mix with
interactive ILMP / Shuffle0 proofs), together with theorems settling the
frozen claims about its specification.

Conventions of the embedding:
* Go `big.Int` values are modelled as `Int`.  Go's `Int.Mod` is Euclidean
  (result in `[0, |m|)` for `m > 0`), which coincides with Lean's `Int.emod`
  (`%`) for a positive modulus.
* Go `z.Exp(b, e, p)` is modelled by `powMod b e p = b ^ e.toNat % p`; at
  every call site in the modelled code the exponent is non-negative.
* Go `z.GCD(&a, &b, x, y)` produces Bezout coefficients; the coefficient for
  `x` is modelled by `bezoutA x y` via `Nat.gcdA`.  Only the Bezout identity
  `x * a + y * b = gcd x y` is relied upon, which both implementations satisfy.
* The secure random source (`Sample`, `rand.Int`) is modelled by explicit
  parameters for the drawn values; theorems quantify over all draws in the
  range that the source can return.
* A Go run-time panic (index out of range) is modelled by the `crashed` /
  `none` outcome; returning `(v, nil)` is the `ok` outcome, and returning a
  non-nil error is an `err*` outcome.
-/

namespace Shuffle

/-- Reading `l[i]` from a Go slice: the value when `i` is in bounds,
`none` (a run-time panic) otherwise. -/
def idx? (l : List Int) (i : Nat) : Option Int :=
  if i < l.length then some (l.getD i 0) else none

/-- Reading `l[j]` with a Go `int` index that may be negative. -/
def idxI? (l : List (Option Int)) (j : Int) : Option (Option Int) :=
  if 0 ≤ j ∧ j < (l.length : Int) then some (l.getD j.toNat none) else none

/-- Go `r.Exp(b, e, p)` for a non-negative exponent: `b ^ e mod p`. -/
def powMod (b e p : Int) : Int := b ^ e.toNat % p

/-- Extended Euclid on the rows `(r0; s0, t0)`, `(r1; s1, t1)`, with
explicit fuel so that the kernel can evaluate it; with fuel above `r1` the
fuel never runs out and the result is `(gcd, s, t)` with
`a*s + n*t = gcd` for the initial rows. -/
def xgcdF : Nat → Nat → Nat → Int → Int → Int → Int → Nat × Int × Int
  | 0, r0, _, s0, _, t0, _ => (r0, s0, t0)
  | fuel+1, r0, r1, s0, s1, t0, t1 =>
    if r1 = 0 then (r0, s0, t0)
    else xgcdF fuel r1 (r0 % r1) s1 (s0 - (r0 / r1 : Nat) * s1)
      t1 (t0 - (r0 / r1 : Nat) * t1)

/-- The Bezout coefficient of `a` produced by Go's `z.GCD(&inv, &q, a, n)`:
`a * bezoutA a n + n * (second coefficient) = gcd a n`.  (Both the Go
implementation and this one satisfy the Bezout identity, which is the only
property the verification relies on.) -/
def bezoutA (a n : Int) : Int :=
  (xgcdF (n.toNat + 1) a.toNat n.toNat 1 0 0 1).2.1

/-- Invariant of `xgcdF`: given enough fuel and Bezout rows, it returns the
gcd together with coefficients for it. -/
theorem xgcdF_spec (a n : Int) :
    ∀ (fuel r0 r1 : Nat) (s0 s1 t0 t1 : Int), r1 < fuel →
    a * s0 + n * t0 = (r0 : Int) → a * s1 + n * t1 = (r1 : Int) →
    (xgcdF fuel r0 r1 s0 s1 t0 t1).1 = Nat.gcd r1 r0 ∧
    a * (xgcdF fuel r0 r1 s0 s1 t0 t1).2.1 +
      n * (xgcdF fuel r0 r1 s0 s1 t0 t1).2.2
      = ((xgcdF fuel r0 r1 s0 s1 t0 t1).1 : Int) := by
  intro fuel
  induction fuel with
  | zero =>
    intro r0 r1 s0 s1 t0 t1 h
    omega
  | succ fuel ih =>
    intro r0 r1 s0 s1 t0 t1 hfuel h0 h1
    by_cases hz : r1 = 0
    · show (if r1 = 0 then ((r0 : Nat), s0, t0) else _).1 = _ ∧
        a * (if r1 = 0 then ((r0 : Nat), s0, t0) else _).2.1 +
          n * (if r1 = 0 then ((r0 : Nat), s0, t0) else _).2.2 = _
      rw [if_pos hz, hz, Nat.gcd_zero_left]
      exact ⟨rfl, h0⟩
    · have hrec : xgcdF (fuel+1) r0 r1 s0 s1 t0 t1
          = xgcdF fuel r1 (r0 % r1) s1 (s0 - (r0 / r1 : Nat) * s1)
            t1 (t0 - (r0 / r1 : Nat) * t1) := by
        show (if r1 = 0 then ((r0 : Nat), s0, t0) else _) = _
        rw [if_neg hz]
      rw [hrec]
      have hmod : ((r0 % r1 : Nat) : Int) = (r0 : Int) - (r1 : Int) * ((r0 / r1 : Nat) : Int) := by
        have hnat := congrArg (fun m : Nat => (m : Int)) (Nat.mod_add_div r0 r1)
        push_cast at hnat ⊢
        linarith
      have h1' : a * (s0 - (r0 / r1 : Nat) * s1) + n * (t0 - (r0 / r1 : Nat) * t1)
          = ((r0 % r1 : Nat) : Int) := by
        rw [hmod]
        linear_combination h0 - ((r0 / r1 : Nat) : Int) * h1
      have hlt : r0 % r1 < fuel := by
        have := Nat.mod_lt r0 (show 0 < r1 by omega)
        omega
      obtain ⟨hg, hb⟩ := ih r1 (r0 % r1) s1 (s0 - (r0 / r1 : Nat) * s1)
        t1 (t0 - (r0 / r1 : Nat) * t1) hlt h1 h1'
      refine ⟨?_, hb⟩
      rw [hg, Nat.gcd_rec r1 r0]

/-- Product of the suffix `l[k], ..., l[len-1]` of a list. -/
def sufProd (l : List Int) (k : Nat) : Int := (l.drop k).prod

/-- Public parameters `P, G, Q` (`elgamal.go`, `KeyParameters`):
primes `P`, `Q` with `G` generating a subgroup of order `Q` mod `P`.
The invariants are stated as hypotheses of the theorems that need them. -/
structure KeyParameters where
  P : Int
  G : Int
  Q : Int

/-- Secret key (`elgamal.go`, `SecretKey`): the parameters together with
`X ∈ [1, Q-1]` and the derived `qMinusX = Q - X`. -/
structure SecretKey where
  P : Int
  G : Int
  Q : Int
  X : Int
  qMinusX : Int

/-- Public key (`elgamal.go`, `PublicKey`): the parameters together with
`Y = G^X mod P`.  (The cached `one`/`qMinusOne` fields only feed sampling,
which is modelled by explicit draw parameters.) -/
structure PublicKey where
  P : Int
  G : Int
  Q : Int
  Y : Int

/-- `Encrypt` (`elgamal.go` lines 109-128) with the ephemeral exponent `r`
(the sampled value after the `+1` adjustment, so `r ∈ [1, Q-1]`):
`R = G^r mod P`, `C = M * Y^r mod P`. -/
def Encrypt (pk : PublicKey) (M r : Int) : Int × Int :=
  (powMod pk.G r pk.P, M * powMod pk.Y r pk.P % pk.P)

/-- `Decrypt` (`elgamal.go` lines 130-136): `M = R^{qMinusX} mod P * C mod P`. -/
def Decrypt (sk : SecretKey) (R C : Int) : Int :=
  powMod R sk.qMinusX sk.P * C % sk.P

/-! ### Arithmetic lemmas about `powMod` and `bezoutA` -/

theorem powMod_nonneg (b e : Int) {p : Int} (hp : 0 < p) : 0 ≤ powMod b e p :=
  Int.emod_nonneg _ (by omega)

theorem powMod_lt (b e : Int) {p : Int} (hp : 0 < p) : powMod b e p < p :=
  Int.emod_lt_of_pos _ hp

theorem toNat_add_of_nonneg {a b : Int} (ha : 0 ≤ a) (hb : 0 ≤ b) :
    (a + b).toNat = a.toNat + b.toNat := by omega

theorem toNat_mul_of_nonneg {a b : Int} (ha : 0 ≤ a) (hb : 0 ≤ b) :
    (a * b).toNat = a.toNat * b.toNat := by
  have h : ((a * b).toNat : Int) = ((a.toNat * b.toNat : Nat) : Int) := by
    push_cast
    rw [Int.toNat_of_nonneg ha, Int.toNat_of_nonneg hb,
      Int.toNat_of_nonneg (mul_nonneg ha hb)]
  exact_mod_cast h

/-- Multiplying two reduced powers of `g` and reducing adds exponents. -/
theorem powMod_mul {g a b p : Int} (ha : 0 ≤ a) (hb : 0 ≤ b) :
    powMod g a p * powMod g b p % p = powMod g (a + b) p := by
  unfold powMod
  rw [← Int.mul_emod, ← pow_add, toNat_add_of_nonneg ha hb]

/-- Reducing the base of a power does not change the reduced power. -/
theorem pow_emod_base (g : Int) (m : Nat) (p : Int) :
    (g % p) ^ m % p = g ^ m % p := by
  have h : g % p ≡ g [ZMOD p] := Int.emod_emod g p
  exact h.pow m

/-- Raising a reduced power of `g` to a further power multiplies exponents. -/
theorem powMod_pow {g a e p : Int} (ha : 0 ≤ a) (he : 0 ≤ e) :
    powMod (powMod g a p) e p = powMod g (a * e) p := by
  unfold powMod
  rw [pow_emod_base, ← pow_mul, toNat_mul_of_nonneg ha he]

/-- If `g^Q ≡ 1 (mod p)` then congruent non-negative exponents give the
same reduced power. -/
theorem powMod_congr {g q p : Int} (hq : 0 < q)
    (hord : g ^ q.toNat % p = 1 % p) {a b : Int} (ha : 0 ≤ a) (hb : 0 ≤ b)
    (hab : a ≡ b [ZMOD q]) : powMod g a p = powMod g b p := by
  have key : ∀ m t : Nat, g ^ (m + q.toNat * t) % p = g ^ m % p := by
    intro m t
    rw [pow_add, Int.mul_emod, pow_mul, ← pow_emod_base (g ^ q.toNat), hord,
      pow_emod_base, one_pow, ← Int.mul_emod, mul_one]
  have hmod : a.toNat % q.toNat = b.toNat % q.toNat := by
    have h1 : a % q = b % q := hab
    have h2 : a % q = ((a.toNat % q.toNat : Nat) : Int) := by
      push_cast
      rw [Int.toNat_of_nonneg ha, Int.toNat_of_nonneg hq.le]
    have h3 : b % q = ((b.toNat % q.toNat : Nat) : Int) := by
      push_cast
      rw [Int.toNat_of_nonneg hb, Int.toNat_of_nonneg hq.le]
    omega
  have hqpos : 0 < q.toNat := by omega
  unfold powMod
  calc g ^ a.toNat % p
      = g ^ (a.toNat % q.toNat + q.toNat * (a.toNat / q.toNat)) % p := by
        rw [Nat.mod_add_div]
    _ = g ^ (a.toNat % q.toNat) % p := key _ _
    _ = g ^ (b.toNat % q.toNat) % p := by rw [hmod]
    _ = g ^ (b.toNat % q.toNat + q.toNat * (b.toNat / q.toNat)) % p := (key _ _).symm
    _ = g ^ b.toNat % p := by rw [Nat.mod_add_div]

/-- Bezout identity for the modelled GCD coefficient. -/
theorem bezoutA_spec {a n : Int} (ha : 0 ≤ a) (hn : 0 ≤ n) :
    a * bezoutA a n ≡ (Int.gcd a n : Int) [ZMOD n] := by
  unfold bezoutA
  obtain ⟨hg, hb⟩ := xgcdF_spec a n (n.toNat + 1) a.toNat n.toNat 1 0 0 1
    (by omega) (by rw [Int.toNat_of_nonneg ha]; ring)
    (by rw [Int.toNat_of_nonneg hn]; ring)
  have hgi : (Int.gcd a n : Int) = ((Nat.gcd n.toNat a.toNat : Nat) : Int) := by
    have h1 : a.natAbs = a.toNat := by omega
    have h2 : n.natAbs = n.toNat := by omega
    show ((a.natAbs.gcd n.natAbs : Nat) : Int) = _
    rw [h1, h2, Nat.gcd_comm]
  rw [hgi, ← hg, ← hb]
  have h0 : (0 : Int) ≡
      n * (xgcdF (n.toNat + 1) a.toNat n.toNat 1 0 0 1).2.2 [ZMOD n] :=
    (Int.modEq_zero_iff_dvd.mpr ⟨_, rfl⟩).symm
  have := Int.ModEq.add_left
    (a * (xgcdF (n.toNat + 1) a.toNat n.toNat 1 0 0 1).2.1) h0
  simpa using this

/-- For `a` coprime to `n`, `bezoutA a n` is a modular inverse of `a`. -/
theorem bezoutA_inv {a n : Int} (ha : 0 ≤ a) (hn : 0 ≤ n)
    (hco : Int.gcd a n = 1) : a * bezoutA a n ≡ 1 [ZMOD n] := by
  have h := bezoutA_spec ha hn
  rw [hco] at h
  exact_mod_cast h

/-! ### Claim C8: ElGamal round trip -/

/-- Shared round-trip core: decrypting a well-formed ciphertext of a
subgroup element `M = G^μ mod P` recovers `M`. -/
theorem decrypt_encrypt_core (P G Q X μ r : Int)
    (hP : 0 < P) (hQ : 0 < Q) (hord : G ^ Q.toNat % P = 1 % P)
    (hX0 : 0 ≤ X) (hXQ : X ≤ Q) (hμ : 0 ≤ μ) (hr : 0 ≤ r) :
    Decrypt ⟨P, G, Q, X, Q - X⟩
      (powMod G r P) (powMod G μ P * powMod (powMod G X P) r P % P)
      = powMod G μ P := by
  unfold Decrypt
  have h1 : powMod (powMod G X P) r P = powMod G (X * r) P :=
    powMod_pow hX0 hr
  have h2 : powMod G μ P * powMod G (X * r) P % P = powMod G (μ + X * r) P :=
    powMod_mul hμ (mul_nonneg hX0 hr)
  have h3 : powMod (powMod G r P) (Q - X) P = powMod G (r * (Q - X)) P :=
    powMod_pow hr (by omega)
  simp only [SecretKey.qMinusX, SecretKey.P]
  rw [h1, h2, h3]
  have h4 : powMod G (r * (Q - X)) P * powMod G (μ + X * r) P % P
      = powMod G (r * (Q - X) + (μ + X * r)) P :=
    powMod_mul (mul_nonneg hr (by omega)) (by positivity)
  rw [h4]
  have h5 : r * (Q - X) + (μ + X * r) = μ + Q * r := by ring
  rw [h5]
  exact powMod_congr hQ hord (by positivity) hμ
    (by
      have h0 : (Q : Int) * r ≡ 0 [ZMOD Q] :=
        Int.modEq_zero_iff_dvd.mpr ⟨r, rfl⟩
      simpa using (Int.ModEq.add_left μ h0))

/-- C8: for key parameters with `P` prime and `G^Q ≡ 1 (mod P)`, a key pair
`X ∈ [1,Q-1]`, `Y = G^X mod P`, a plaintext `M = G^μ mod P` in the subgroup
generated by `G`, and any ephemeral exponent `r ∈ [1,Q-1]` drawn inside
`Encrypt`, decryption of `Encrypt M` with the matching secret key returns
exactly `M` (`Decrypt` computes `C * R^{Q-X} mod P`). -/
theorem elgamal_round_trip (P G Q X μ r : Int)
    (hPprime : Nat.Prime P.toNat) (hQ : 0 < Q)
    (hord : G ^ Q.toNat % P = 1 % P)
    (hX1 : 1 ≤ X) (hXQ : X ≤ Q - 1) (hμ : 0 ≤ μ) (hr1 : 1 ≤ r) (hrQ : r ≤ Q - 1) :
    Decrypt ⟨P, G, Q, X, Q - X⟩
      (Encrypt ⟨P, G, Q, powMod G X P⟩ (powMod G μ P) r).1
      (Encrypt ⟨P, G, Q, powMod G X P⟩ (powMod G μ P) r).2
      = powMod G μ P := by
  have hP : 0 < P := by
    have := hPprime.two_le
    omega
  exact decrypt_encrypt_core P G Q X μ r hP hQ hord (by omega) (by omega) hμ (by omega)

/-- Witness for C8 on the group `P = 23`, `Q = 11`, `G = 2` with `X = 3`,
`M = G^5 mod P`, `r = 7`. -/
theorem elgamal_round_trip_witness :
    (Nat.Prime (23 : Int).toNat ∧ (0 : Int) < 11 ∧
      (2 : Int) ^ (11 : Int).toNat % 23 = 1 % 23 ∧
      (1 : Int) ≤ 3 ∧ (3 : Int) ≤ 11 - 1 ∧ (0 : Int) ≤ 5 ∧
      (1 : Int) ≤ 7 ∧ (7 : Int) ≤ 11 - 1) ∧
    Decrypt ⟨23, 2, 11, 3, 11 - 3⟩
      (Encrypt ⟨23, 2, 11, powMod 2 3 23⟩ (powMod 2 5 23) 7).1
      (Encrypt ⟨23, 2, 11, powMod 2 3 23⟩ (powMod 2 5 23) 7).2
      = powMod 2 5 23 :=
  ⟨by decide,
    elgamal_round_trip 23 2 11 3 5 7 (by decide) (by decide) (by decide)
      (by decide) (by decide) (by decide) (by decide) (by decide)⟩

/-! ### List access helper lemmas -/

theorem getD_set_self {α : Type} {l : List α} {i : Nat} (h : i < l.length)
    (a d : α) : (l.set i a).getD i d = a := by
  rw [List.getD_eq_getElem?_getD, List.getElem?_set_self h]
  rfl

theorem getD_set_ne {α : Type} {l : List α} {i j : Nat} (h : i ≠ j)
    (a d : α) : (l.set i a).getD j d = l.getD j d := by
  rw [List.getD_eq_getElem?_getD, List.getElem?_set_ne h,
    ← List.getD_eq_getElem?_getD]

theorem getD_replicate {α : Type} {n i : Nat} (h : i < n) (a d : α) :
    (List.replicate n a).getD i d = a := by
  rw [List.getD_eq_getElem?_getD, List.getElem?_replicate, if_pos h]
  rfl

theorem idx?_eq_some {l : List Int} {i : Nat} (h : i < l.length) :
    idx? l i = some (l.getD i 0) := by
  unfold idx?
  rw [if_pos h]

/-! ### The decrypting mix (`shuffle.go` lines 43-58, `Mix`) -/

/-- Outcome of a `Mix` call: a run-time panic, one of the two error
returns, or the successful `([]*big.Int, nil)` return (slot `none`
models a `nil` pointer in the output slice). -/
inductive MixResult where
  | crashed : MixResult
  | lengthMismatch : MixResult
  | notAPermutation : MixResult
  | ok : List (Option Int) → MixResult
  deriving DecidableEq

/-- The loop of `Mix`: for `i` from `0`, `k` iterations remaining.
Go evaluates `M[j]` (a potential panic for `j` outside `[0, len(M))`)
before the `0 <= j && j < len(R)` test, so the bounds test is modelled
after the fallible read, exactly as in the source. -/
def mixLoop (sk : SecretKey) (R C perm : List Int) :
    List (Option Int) → Nat → Nat → MixResult
  | M, _, 0 => .ok M
  | M, i, k+1 =>
    match idx? perm i with
    | none => .crashed
    | some j =>
      match idxI? M j with
      | none => .crashed
      | some slot =>
        if slot = none ∧ 0 ≤ j ∧ j < (R.length : Int) then
          match idx? R i, idx? C i with
          | some ri, some ci =>
              mixLoop sk R C perm (M.set j.toNat (some (Decrypt sk ri ci))) (i+1) k
          | _, _ => .crashed
        else .notAPermutation

/-- `Mix` (`shuffle.go` lines 43-58): decrypt the batch `(R[i], C[i])` and
place each plaintext at output index `perm[i]`. -/
def Mix (sk : SecretKey) (R C perm : List Int) : MixResult :=
  if R.length ≠ C.length then .lengthMismatch
  else mixLoop sk R C perm (List.replicate R.length none) 0 R.length

/-- Invariant-carrying induction for `mixLoop` on a bijective `perm`. -/
theorem mixLoop_ok (sk : SecretKey) (R C perm : List Int)
    (hC : C.length = R.length) (hperm : perm.length = R.length)
    (hrange : ∀ i, i < R.length →
      0 ≤ perm.getD i 0 ∧ perm.getD i 0 < (R.length : Int))
    (hinj : ∀ i, i < R.length → ∀ j, j < R.length →
      perm.getD i 0 = perm.getD j 0 → i = j) :
    ∀ k i M, i + k = R.length → M.length = R.length →
    (∀ t, t < i →
      M.getD (perm.getD t 0).toNat none
        = some (Decrypt sk (R.getD t 0) (C.getD t 0))) →
    (∀ j, j < M.length →
      (∀ t, t < i → (perm.getD t 0).toNat ≠ j) → M.getD j none = none) →
    ∃ M', mixLoop sk R C perm M i k = .ok M' ∧ M'.length = R.length ∧
      ∀ t, t < R.length →
        M'.getD (perm.getD t 0).toNat none
          = some (Decrypt sk (R.getD t 0) (C.getD t 0)) := by
  intro k
  induction k with
  | zero =>
    intro i M hik hMlen hfilled _
    exact ⟨M, rfl, hMlen, fun t ht => hfilled t (by omega)⟩
  | succ k ih =>
    intro i M hik hMlen hfilled hempty
    have hi : i < R.length := by omega
    have hjr := hrange i hi
    set j : Int := perm.getD i 0 with hj
    have hjt : j.toNat < M.length := by omega
    have hslot : M.getD j.toNat none = none := by
      refine hempty j.toNat hjt ?_
      intro t ht heq
      have htR : t < R.length := by omega
      have h1 := hrange t htR
      have : perm.getD t 0 = j := by omega
      have := hinj t htR i hi (this.trans hj)
      omega
    have h1 : idx? perm i = some j := by
      rw [hj]
      exact idx?_eq_some (by omega)
    have h2 : idxI? M j = some none := by
      unfold idxI?
      rw [if_pos (by constructor <;> omega)]
      exact congrArg some hslot
    have h3 : idx? R i = some (R.getD i 0) := idx?_eq_some (by omega)
    have h4 : idx? C i = some (C.getD i 0) := idx?_eq_some (by omega)
    have step : mixLoop sk R C perm M i (k+1)
        = mixLoop sk R C perm
            (M.set j.toNat (some (Decrypt sk (R.getD i 0) (C.getD i 0)))) (i+1) k := by
      simp only [mixLoop, h1, h2, h3, h4]
      rw [if_pos ⟨trivial, hjr.1, hjr.2⟩]
    rw [step]
    refine ih (i+1) _ (by omega) (by simpa using hMlen) ?_ ?_
    · intro t ht
      rcases Nat.lt_or_ge t i with h | h
      · have htR : t < R.length := by omega
        have hne : j.toNat ≠ (perm.getD t 0).toNat := by
          intro heq
          have h1 := hrange t htR
          have : perm.getD t 0 = j := by omega
          exact absurd (hinj t htR i hi (this.trans hj)) (by omega)
        rw [getD_set_ne hne]
        exact hfilled t h
      · have : t = i := by omega
        subst this
        rw [← hj, getD_set_self hjt]
    · intro j' hj' hfresh
      have hne : j.toNat ≠ j' := hfresh i (by omega)
      rw [List.length_set] at hj'
      rw [getD_set_ne hne]
      exact hempty j' hj' fun t ht => hfresh t (by omega)

/-- C7: for equal-length batches and a `perm` that is a bijection on
`[0,n)`, `Mix` succeeds with a length-`n` output placing
`Decrypt(R[i], C[i])` at index `perm[i]`; consequently an input that
encrypts the subgroup element `m` under the matching key ends up, after
the mix, as the plaintext `m` at index `perm[i]`. -/
theorem mix_correct (sk : SecretKey) (R C perm : List Int)
    (hC : C.length = R.length) (hperm : perm.length = R.length)
    (hrange : ∀ i, i < R.length →
      0 ≤ perm.getD i 0 ∧ perm.getD i 0 < (R.length : Int))
    (hinj : ∀ i, i < R.length → ∀ j, j < R.length →
      perm.getD i 0 = perm.getD j 0 → i = j) :
    ∃ M, Mix sk R C perm = .ok M ∧ M.length = R.length ∧
      (∀ i, i < R.length →
        M.getD (perm.getD i 0).toNat none
          = some (Decrypt sk (R.getD i 0) (C.getD i 0))) ∧
      (∀ i μ r m, i < R.length →
        0 < sk.P → 0 < sk.Q → sk.G ^ sk.Q.toNat % sk.P = 1 % sk.P →
        0 ≤ sk.X → sk.X ≤ sk.Q → sk.qMinusX = sk.Q - sk.X →
        0 ≤ μ → 0 ≤ r → m = powMod sk.G μ sk.P →
        R.getD i 0 = powMod sk.G r sk.P →
        C.getD i 0 = m * powMod (powMod sk.G sk.X sk.P) r sk.P % sk.P →
        M.getD (perm.getD i 0).toNat none = some m) := by
  obtain ⟨M, hM, hlen, hfill⟩ :=
    mixLoop_ok sk R C perm hC hperm hrange hinj R.length 0
      (List.replicate R.length none) (by omega) (by simp)
      (fun t ht => absurd ht (by omega))
      (fun j hj _ => getD_replicate (by simpa using hj) none none)
  refine ⟨M, ?_, hlen, hfill, ?_⟩
  · unfold Mix
    rw [if_neg (by omega)]
    exact hM
  · intro i μ r m hi hP hQ hord hX0 hXQ hqmx hμ hr hm hR hCi
    have := hfill i hi
    rw [hR, hCi, hm] at this
    rw [this]
    have hcore := decrypt_encrypt_core sk.P sk.G sk.Q sk.X μ r hP hQ hord hX0 hXQ hμ hr
    have hsk : sk = ⟨sk.P, sk.G, sk.Q, sk.X, sk.qMinusX⟩ := rfl
    rw [hm]
    congr 1
    calc Decrypt sk (powMod sk.G r sk.P)
          (powMod sk.G μ sk.P * powMod (powMod sk.G sk.X sk.P) r sk.P % sk.P)
        = Decrypt ⟨sk.P, sk.G, sk.Q, sk.X, sk.Q - sk.X⟩ (powMod sk.G r sk.P)
          (powMod sk.G μ sk.P * powMod (powMod sk.G sk.X sk.P) r sk.P % sk.P) := by
          rw [hsk, hqmx]
      _ = powMod sk.G μ sk.P := hcore

/-- Witness for C7: a two-element batch under the `(23, 2, 11)` group with
`perm = [1, 0]`. -/
theorem mix_correct_witness :
    ((4 : Int) :: [2]).length = ((3 : Int) :: [5]).length ∧
    ∃ M, Mix ⟨23, 2, 11, 3, 8⟩ [3, 5] [4, 2] [1, 0] = .ok M ∧
      M.length = ([3, 5] : List Int).length ∧
      (∀ i, i < ([3, 5] : List Int).length →
        M.getD (([1, 0] : List Int).getD i 0).toNat none
          = some (Decrypt ⟨23, 2, 11, 3, 8⟩ (([3, 5] : List Int).getD i 0)
              (([4, 2] : List Int).getD i 0))) := by
  refine ⟨rfl, ?_⟩
  obtain ⟨M, h1, h2, h3, _⟩ :=
    mix_correct ⟨23, 2, 11, 3, 8⟩ [3, 5] [4, 2] [1, 0] (by decide) (by decide)
      (by decide) (by decide)
  exact ⟨M, h1, h2, h3⟩

/-- C4 is a code bug: the claim (and the dead `0 <= j && j < len(R)` guard in
the source) intends a `NotAPermutation` error for an out-of-range `perm`
entry, but Go evaluates `M[j]` before that guard, so the call panics
instead.  A duplicated in-range destination does return the error with no
partial result, as the claim states. -/
theorem mix_out_of_range_panics :
    Mix ⟨23, 2, 11, 3, 8⟩ [4] [5] [1] = .crashed ∧
    Mix ⟨23, 2, 11, 3, 8⟩ [4] [5] [-1] = .crashed ∧
    Mix ⟨23, 2, 11, 3, 8⟩ [4, 2] [5, 3] [0, 0] = .notAPermutation := by
  refine ⟨?_, ?_, ?_⟩ <;> rfl

/-! ### `GeneratePerm` (`shuffle.go` lines 62-83)

The loop body swaps `perm[i]` and `perm[j]` with three XOR assignments.
`js m` models the value drawn by `rand.Int(rand.Reader, max)` at the step
whose loop index is `m`; the draw is legal only when `js m` is below the
bound `max` that the code passes, so an out-of-range draw function makes
the run impossible (`none`). -/

/-- The three XOR assignments of the swap at positions `i`, `j`. -/
def xorSwap (l : List Nat) (i j : Nat) : List Nat :=
  let l1 := l.set i (l.getD i 0 ^^^ l.getD j 0)
  let l2 := l1.set j (l1.getD j 0 ^^^ l1.getD i 0)
  l2.set i (l2.getD i 0 ^^^ l2.getD j 0)

/-- The loop of `GeneratePerm`: the third argument counts the remaining
steps, processing loop index `i+1` with the decremented bound `mx - 1`. -/
def genPermAux (js : Nat → Nat) : List Nat → Nat → Nat → Option (List Nat)
  | l, _, 0 => some l
  | l, mx, i+1 =>
    if js (i+1) < mx - 1 then genPermAux js (xorSwap l (i+1) (js (i+1))) (mx - 1) i
    else none

/-- `GeneratePerm` (`shuffle.go` lines 62-83): initialize `perm[i] = i`,
then for `i` from `n-1` down to `1` decrement `max`, draw `j < max` and
XOR-swap `perm[i]` with `perm[j]`. -/
def GeneratePerm (n : Nat) (js : Nat → Nat) : Option (List Nat) :=
  genPermAux js (List.range n) n (n - 1)

/-- The transposition of `i` and `j` as a function on indices. -/
def swapF (i j : Nat) : Nat → Nat :=
  fun k => if k = i then j else if k = j then i else k

/-- The index permutation accumulated by the first `n-1`, ..., down-to-`i`
swaps: `sattoloAux js i = swapF i (js i) ∘ ... ∘ swapF 1 (js 1)`. -/
def sattoloAux (js : Nat → Nat) : Nat → Nat → Nat
  | 0, k => k
  | i+1, k => swapF (i+1) (js (i+1)) (sattoloAux js i k)

theorem swapF_invol (i j k : Nat) : swapF i j (swapF i j k) = k := by
  unfold swapF
  split_ifs <;> omega

theorem swapF_injective (i j : Nat) : Function.Injective (swapF i j) := by
  intro a b h
  have h2 := congrArg (swapF i j) h
  rwa [swapF_invol, swapF_invol] at h2

theorem sattolo_id_above (js : Nat → Nat) :
    ∀ i, (∀ m, 1 ≤ m → m ≤ i → js m < m) → ∀ k, i < k → sattoloAux js i k = k := by
  intro i
  induction i with
  | zero => intro _ k _; rfl
  | succ i ih =>
    intro hjs k hk
    have hj : js (i+1) < i+1 := hjs (i+1) (by omega) le_rfl
    show swapF (i+1) (js (i+1)) (sattoloAux js i k) = k
    rw [ih (fun m h1 h2 => hjs m h1 (by omega)) k (by omega)]
    unfold swapF
    rw [if_neg (by omega), if_neg (by omega)]

theorem sattolo_le (js : Nat → Nat) :
    ∀ i, (∀ m, 1 ≤ m → m ≤ i → js m < m) →
    ∀ k, k ≤ i → sattoloAux js i k ≤ i := by
  intro i
  induction i with
  | zero => intro _ k hk; simpa [sattoloAux] using hk
  | succ i ih =>
    intro hjs k hk
    have hj : js (i+1) < i+1 := hjs (i+1) (by omega) le_rfl
    show swapF (i+1) (js (i+1)) (sattoloAux js i k) ≤ i+1
    rcases Nat.lt_or_ge k (i+1) with h | h
    · have hv : sattoloAux js i k ≤ i :=
        ih (fun m h1 h2 => hjs m h1 (by omega)) k (by omega)
      unfold swapF
      split_ifs <;> omega
    · have hk1 : k = i+1 := by omega
      rw [hk1, sattolo_id_above js i (fun m h1 h2 => hjs m h1 (by omega)) (i+1) (by omega)]
      unfold swapF
      rw [if_pos rfl]
      omega

theorem sattolo_injective (js : Nat → Nat) :
    ∀ i, Function.Injective (sattoloAux js i) := by
  intro i
  induction i with
  | zero => intro a b h; exact h
  | succ i ih =>
    intro a b h
    exact ih (swapF_injective _ _ h)

theorem sattolo_iterate_le (js : Nat → Nat) (i : Nat)
    (hjs : ∀ m, 1 ≤ m → m ≤ i → js m < m) :
    ∀ t a, a ≤ i → (sattoloAux js i)^[t] a ≤ i := by
  intro t
  induction t with
  | zero => intro a ha; simpa using ha
  | succ t ih =>
    intro a ha
    rw [Function.iterate_succ_apply']
    exact sattolo_le js i hjs _ (ih a ha)

/-- Key transitivity invariant: after processing indices `i, ..., 1`, the
accumulated permutation moves any point of `[0, i]` to any other by
iteration — its restriction to `[0, i]` is one cycle. -/
theorem sattolo_trans (js : Nat → Nat) :
    ∀ i, (∀ m, 1 ≤ m → m ≤ i → js m < m) →
    ∀ a b, a ≤ i → b ≤ i → ∃ t, (sattoloAux js i)^[t] a = b := by
  intro i
  induction i with
  | zero =>
    intro _ a b ha hb
    have hab : a = b := by omega
    exact ⟨0, by simp [hab]⟩
  | succ i ih =>
    intro hjs a b ha hb
    have hjs' : ∀ m, 1 ≤ m → m ≤ i → js m < m := fun m h1 h2 => hjs m h1 (by omega)
    have hj : js (i+1) < i+1 := hjs (i+1) (by omega) le_rfl
    set σ := sattoloAux js i with hσ
    set σ' := sattoloAux js (i+1) with hσ'
    have happ : ∀ k, σ' k = swapF (i+1) (js (i+1)) (σ k) := fun k => rfl
    -- one application of `σ` is simulated by one or two applications of `σ'`
    have hstep : ∀ a, a ≤ i → ∃ t, 0 < t ∧ σ'^[t] a = σ a := by
      intro a ha
      have hσa : σ a ≤ i := sattolo_le js i hjs' a ha
      by_cases hc : σ a = js (i+1)
      · refine ⟨2, by omega, ?_⟩
        have h1 : σ' a = i+1 := by
          rw [happ, hc]
          unfold swapF
          rw [if_neg (by omega), if_pos rfl]
        have hid : σ (i+1) = i+1 := sattolo_id_above js i hjs' (i+1) (by omega)
        have h2 : σ' (i+1) = js (i+1) := by
          rw [happ, hid]
          unfold swapF
          rw [if_pos rfl]
        show σ' (σ' a) = σ a
        rw [h1, h2, hc]
      · refine ⟨1, by omega, ?_⟩
        show σ' a = σ a
        rw [happ]
        unfold swapF
        rw [if_neg (by omega), if_neg hc]
    -- iterates of `σ` are simulated by iterates of `σ'`
    have hlift : ∀ t a, a ≤ i → ∃ t', σ'^[t'] a = σ^[t] a := by
      intro t
      induction t with
      | zero => intro a _; exact ⟨0, rfl⟩
      | succ t iht =>
        intro a ha
        obtain ⟨t', ht'⟩ := iht a ha
        have hb : σ^[t] a ≤ i := sattolo_iterate_le js i hjs' t a ha
        obtain ⟨s, _, hs⟩ := hstep _ hb
        refine ⟨s + t', ?_⟩
        rw [Function.iterate_add_apply, ht', hs]
        exact (Function.iterate_succ_apply' σ t a).symm
    rcases Nat.lt_or_ge a (i+1) with haa | haa
    · rcases Nat.lt_or_ge b (i+1) with hbb | hbb
      · -- both within the old range
        obtain ⟨t, ht⟩ := ih hjs' a b (by omega) (by omega)
        obtain ⟨t', ht'⟩ := hlift t a (by omega)
        exact ⟨t', ht'.trans ht⟩
      · -- reach the new point `i+1` through the preimage of `js (i+1)`
        have hb1 : b = i+1 := by omega
        have hσa : σ a ≤ i := sattolo_le js i hjs' a (by omega)
        obtain ⟨t, ht⟩ := ih hjs' (σ a) (js (i+1)) hσa (by omega)
        have ht1 : σ^[t+1] a = js (i+1) := by
          rw [Function.iterate_succ_apply]
          exact ht
        have hc : σ (σ^[t] a) = js (i+1) :=
          (Function.iterate_succ_apply' σ t a).symm.trans ht1
        obtain ⟨t', ht'⟩ := hlift t a (by omega)
        have hσ'c : σ' (σ^[t] a) = i+1 := by
          rw [happ, hc]
          unfold swapF
          rw [if_neg (by omega), if_pos rfl]
        refine ⟨t' + 1, ?_⟩
        rw [hb1, Function.iterate_succ_apply', ht', hσ'c]
    · -- `a = i+1`: first step moves to `js (i+1)`, then recurse
      have ha1 : a = i+1 := by omega
      have hid : σ (i+1) = i+1 := sattolo_id_above js i hjs' (i+1) (by omega)
      have h2 : σ' (i+1) = js (i+1) := by
        rw [happ, hid]
        unfold swapF
        rw [if_pos rfl]
      rcases Nat.lt_or_ge b (i+1) with hbb | hbb
      · obtain ⟨t, ht⟩ := ih hjs' (js (i+1)) b (by omega) (by omega)
        obtain ⟨t', ht'⟩ := hlift t (js (i+1)) (by omega)
        refine ⟨t' + 1, ?_⟩
        rw [Function.iterate_succ_apply, ha1, h2, ht', ht]
      · have hab : a = b := by omega
        exact ⟨0, by simp [hab]⟩

theorem xor_cancel_left (a b : Nat) : b ^^^ (a ^^^ b) = a := by
  rw [Nat.xor_comm a b, ← Nat.xor_assoc, Nat.xor_self, Nat.zero_xor]

theorem xor_cancel_right (a b : Nat) : (a ^^^ b) ^^^ a = b := by
  rw [Nat.xor_comm a b, Nat.xor_assoc, Nat.xor_self, Nat.xor_zero]

/-- For distinct in-range positions, the three XOR assignments read exactly
like a swap of the two entries. -/
theorem xorSwap_getD {l : List Nat} {i j : Nat} (hij : i ≠ j)
    (hi : i < l.length) (hj : j < l.length) (k : Nat) :
    (xorSwap l i j).getD k 0 = l.getD (swapF i j k) 0 := by
  simp only [xorSwap]
  set a := l.getD i 0 with ha
  set b := l.getD j 0 with hb
  have h1i : (l.set i (a ^^^ b)).getD i 0 = a ^^^ b := getD_set_self hi _ _
  have h1j : (l.set i (a ^^^ b)).getD j 0 = b := by rw [getD_set_ne hij]
  have hlen1 : (l.set i (a ^^^ b)).length = l.length := List.length_set ..
  rw [h1i, h1j, xor_cancel_left]
  set l1 := l.set i (a ^^^ b) with hl1
  have h2j : (l1.set j a).getD j 0 = a := getD_set_self (by omega) _ _
  have h2i : (l1.set j a).getD i 0 = a ^^^ b := by
    rw [getD_set_ne (Ne.symm hij), h1i]
  have hlen2 : (l1.set j a).length = l1.length := List.length_set ..
  rw [h2i, h2j, xor_cancel_right]
  set l2 := l1.set j a with hl2
  unfold swapF
  by_cases hki : k = i
  · rw [if_pos hki, hki, getD_set_self (by omega) _ _]
  · rw [if_neg hki, getD_set_ne (fun h => hki h.symm)]
    by_cases hkj : k = j
    · rw [if_pos hkj, hkj, h2j]
    · rw [if_neg hkj, hl2, getD_set_ne (fun h => hkj h.symm), hl1,
        getD_set_ne (fun h => hki h.symm)]

theorem xorSwap_length (l : List Nat) (i j : Nat) :
    (xorSwap l i j).length = l.length := by
  unfold xorSwap
  rw [List.length_set, List.length_set, List.length_set]

theorem map_getD_range (l : List Nat) :
    (List.range l.length).map (fun k => l.getD k 0) = l := by
  apply List.ext_getElem
  · rw [List.length_map, List.length_range]
  · intro n h1 h2
    rw [List.getElem_map, List.getElem_range, List.getD_eq_getElem?_getD,
      List.getElem?_eq_getElem h2]
    rfl

/-- Bridge from the XOR-swap loop to the accumulated index permutation. -/
theorem genPermAux_eq (js : Nat → Nat) :
    ∀ i (l : List Nat), (∀ m, 1 ≤ m → m ≤ i → js m < m) → i < l.length →
    genPermAux js l (i+1) i
      = some ((List.range l.length).map (fun k => l.getD (sattoloAux js i k) 0)) := by
  intro i
  induction i with
  | zero =>
    intro l _ _
    show some l = some ((List.range l.length).map (fun k => l.getD k 0))
    rw [map_getD_range]
  | succ i ih =>
    intro l hjs hlen
    have hj : js (i+1) < i+1 := hjs (i+1) (by omega) le_rfl
    show (if js (i+1+1-1) < i+1+1-1 then
        genPermAux js (xorSwap l (i+1+1-1) (js (i+1+1-1))) (i+1+1-1) i
      else none) = _
    rw [show i+1+1-1 = i+1 from rfl, if_pos hj]
    have hlen' : i < (xorSwap l (i+1) (js (i+1))).length := by
      rw [xorSwap_length]
      omega
    rw [ih (xorSwap l (i+1) (js (i+1))) (fun m h1 h2 => hjs m h1 (by omega)) hlen']
    rw [xorSwap_length]
    congr 1
    apply List.map_congr_left
    intro k _
    exact xorSwap_getD (by omega) (by omega) (by omega) _

/-- A successful run certifies that every draw was below the bound the code
passed to the source: `js m < m` at the step with loop index `m`. -/
theorem genPermAux_success (js : Nat → Nat) :
    ∀ i l mx r, genPermAux js l mx i = some r →
      ∀ m, 1 ≤ m → m ≤ i → js m < mx - 1 - (i - m) := by
  intro i
  induction i with
  | zero => intro l mx r _ m h1 h2; omega
  | succ i ih =>
    intro l mx r hrun m h1 h2
    have hsplit : js (i+1) < mx - 1 := by
      by_contra hcon
      have : genPermAux js l mx (i+1) = none := by
        show (if js (i+1) < mx - 1 then _ else none) = none
        rw [if_neg hcon]
      rw [this] at hrun
      exact Option.noConfusion hrun
    rcases Nat.eq_or_lt_of_le h2 with he | hlt
    · subst he
      omega
    · have hrun' : genPermAux js (xorSwap l (i+1) (js (i+1))) (mx-1) i = some r := by
        have : genPermAux js l mx (i+1)
            = genPermAux js (xorSwap l (i+1) (js (i+1))) (mx-1) i := by
          show (if js (i+1) < mx - 1 then _ else none) = _
          rw [if_pos hsplit]
        rw [← this]
        exact hrun
      have := ih _ _ _ hrun' m h1 (by omega)
      omega

/-- In a successful `GeneratePerm n` run every draw at loop index `m`
was strictly below `m` itself (the decremented bound). -/
theorem generatePerm_draws (n : Nat) (js : Nat → Nat) (l : List Nat)
    (h : GeneratePerm n js = some l) :
    ∀ m, 1 ≤ m → m ≤ n - 1 → js m < m := by
  intro m h1 h2
  have := genPermAux_success js (n-1) (List.range n) n l h m h1 h2
  omega

/-- Closed form of a successful run: the output list tabulates the
accumulated Sattolo permutation of the indices. -/
theorem generatePerm_eq (n : Nat) (js : Nat → Nat) (l : List Nat)
    (h : GeneratePerm n js = some l) :
    l = (List.range n).map (fun k => sattoloAux js (n-1) k) := by
  have hjs := generatePerm_draws n js l h
  rcases n with _ | n'
  · cases h
    rfl
  · have hlen : n' < (List.range (n'+1)).length := by
      rw [List.length_range]
      omega
    have heq := genPermAux_eq js n' (List.range (n'+1)) (by simpa using hjs) hlen
    unfold GeneratePerm at h
    rw [show n'+1-1 = n' from rfl] at h hjs
    rw [heq] at h
    have h2 := Option.some.inj h
    rw [← h2, List.length_range]
    apply List.map_congr_left
    intro k hk
    have hk' : k < n'+1 := List.mem_range.mp hk
    have hb : sattoloAux js n' k ≤ n' := sattolo_le js n' hjs k (by omega)
    rw [List.getD_eq_getElem?_getD, List.getElem?_range (by omega)]
    rfl

/-- Surjectivity of the accumulated permutation on `[0, i]`. -/
theorem sattolo_surj (js : Nat → Nat) (i : Nat)
    (hjs : ∀ m, 1 ≤ m → m ≤ i → js m < m) :
    ∀ v, v ≤ i → ∃ k, k ≤ i ∧ sattoloAux js i k = v := by
  intro v hv
  have hσv : sattoloAux js i v ≤ i := sattolo_le js i hjs v hv
  obtain ⟨t, ht⟩ := sattolo_trans js i hjs (sattoloAux js i v) v hσv hv
  refine ⟨(sattoloAux js i)^[t] v, sattolo_iterate_le js i hjs t v hv, ?_⟩
  calc sattoloAux js i ((sattoloAux js i)^[t] v)
      = (sattoloAux js i)^[t+1] v := (Function.iterate_succ_apply' _ t v).symm
    _ = (sattoloAux js i)^[t] (sattoloAux js i v) := Function.iterate_succ_apply _ t v
    _ = v := ht

/-- Reading a successful output at an in-range index gives the accumulated
permutation. -/
theorem generatePerm_getD (n : Nat) (js : Nat → Nat) (l : List Nat)
    (h : GeneratePerm n js = some l) {k : Nat} (hk : k < n) :
    l.getD k 0 = sattoloAux js (n-1) k := by
  rw [generatePerm_eq n js l h, List.getD_eq_getElem?_getD, List.getElem?_map,
    List.getElem?_range hk]
  rfl

/-- C9: for every `n ≥ 0` and every outcome of the random source (no
entropy failure), `GeneratePerm n` returns a list of length `n` in which
every value of `[0, n)` appears exactly once — a bijection on
`{0, ..., n-1}`; in particular the XOR-based swap never destroys an entry. -/
theorem generatePerm_bijection (n : Nat) (js : Nat → Nat) (l : List Nat)
    (h : GeneratePerm n js = some l) :
    l.length = n ∧ ∀ v, v < n → l.count v = 1 := by
  have hjs := generatePerm_draws n js l h
  have heq := generatePerm_eq n js l h
  have hlen : l.length = n := by
    rw [heq, List.length_map, List.length_range]
  refine ⟨hlen, fun v hv => ?_⟩
  have hnodup : l.Nodup := by
    rw [heq]
    exact List.Nodup.map (sattolo_injective js (n-1)) (List.nodup_range n)
  obtain ⟨k, hk, hkv⟩ := sattolo_surj js (n-1) hjs v (by omega)
  have hmem : v ∈ l := by
    rw [heq]
    exact List.mem_map.mpr ⟨k, List.mem_range.mpr (by omega), hkv⟩
  exact List.count_eq_one_of_mem hnodup hmem

/-- Witness for C9 at `n = 3` with all draws `0`. -/
theorem generatePerm_bijection_witness :
    GeneratePerm 3 (fun _ => 0) = some [1, 2, 0] ∧
    ([1, 2, 0] : List Nat).length = 3 ∧
    ∀ v, v < 3 → ([1, 2, 0] : List Nat).count v = 1 :=
  ⟨by decide,
    (generatePerm_bijection 3 (fun _ => 0) [1, 2, 0] (by decide)).1,
    (generatePerm_bijection 3 (fun _ => 0) [1, 2, 0] (by decide)).2⟩

/-- C10: for every `n ≥ 2` and every outcome of the random source, the
output of `GeneratePerm n` is a single `n`-cycle — iterating the output
permutation from `0` visits every index below `n` — hence it moves every
element and is never the identity permutation `[0, 1, ..., n-1]`.  (At each
step the swap index is drawn from a range that excludes the current
position `i`.) -/
theorem generatePerm_single_cycle (n : Nat) (js : Nat → Nat) (l : List Nat)
    (hn : 2 ≤ n) (h : GeneratePerm n js = some l) :
    (∀ k, k < n → ∃ t, (fun a => l.getD a 0)^[t] 0 = k) ∧
    (∀ k, k < n → l.getD k 0 ≠ k) ∧ l ≠ List.range n := by
  have hjs := generatePerm_draws n js l h
  have hnofix : ∀ k, k < n → sattoloAux js (n-1) k ≠ k := by
    intro k hk hfix
    have hiterfix : ∀ t, (sattoloAux js (n-1))^[t] k = k := by
      intro t
      induction t with
      | zero => rfl
      | succ t iht => rw [Function.iterate_succ_apply', iht, hfix]
    by_cases hk0 : k = 0
    · obtain ⟨t, ht⟩ := sattolo_trans js (n-1) hjs k 1 (by omega) (by omega)
      rw [hiterfix t] at ht
      omega
    · obtain ⟨t, ht⟩ := sattolo_trans js (n-1) hjs k 0 (by omega) (by omega)
      rw [hiterfix t] at ht
      omega
  refine ⟨?_, ?_, ?_⟩
  · intro k hk
    have hiter : ∀ t a, a < n →
        (fun a => l.getD a 0)^[t] a = (sattoloAux js (n-1))^[t] a := by
      intro t
      induction t with
      | zero => intro a _; rfl
      | succ t iht =>
        intro a ha
        rw [Function.iterate_succ_apply', Function.iterate_succ_apply', iht a ha]
        have hb : (sattoloAux js (n-1))^[t] a ≤ n-1 :=
          sattolo_iterate_le js (n-1) hjs t a (by omega)
        exact generatePerm_getD n js l h (by omega)
    obtain ⟨t, ht⟩ := sattolo_trans js (n-1) hjs 0 k (by omega) (by omega)
    exact ⟨t, (hiter t 0 (by omega)).trans ht⟩
  · intro k hk
    rw [generatePerm_getD n js l h hk]
    exact hnofix k hk
  · intro hid
    have h0 : l.getD 0 0 = sattoloAux js (n-1) 0 := generatePerm_getD n js l h (by omega)
    have h1 : l.getD 0 0 = 0 := by
      rw [hid, List.getD_eq_getElem?_getD, List.getElem?_range (by omega)]
      rfl
    exact hnofix 0 (by omega) (h0.symm.trans h1)

/-- Witness for C10 at `n = 3` with all draws `0` (output `[1, 2, 0]`). -/
theorem generatePerm_single_cycle_witness :
    (2 ≤ 3 ∧ GeneratePerm 3 (fun _ => 0) = some [1, 2, 0]) ∧
    ((∀ k, k < 3 → ∃ t, (fun a => ([1, 2, 0] : List Nat).getD a 0)^[t] 0 = k) ∧
      (∀ k, k < 3 → ([1, 2, 0] : List Nat).getD k 0 ≠ k) ∧
      ([1, 2, 0] : List Nat) ≠ List.range 3) :=
  ⟨⟨by omega, by decide⟩,
    generatePerm_single_cycle 3 (fun _ => 0) [1, 2, 0] (by omega) (by decide)⟩

/-- C3 is a code bug: the spec (and the function's own Fisher-Yates doc
comment) require the draw at step `i` to be uniform on the inclusive range
`[0, i]`, i.e. exclusive bound `i + 1`; but the code decrements `max`
before the draw, so the bound passed to `rand.Int` at step `i` is `i`
itself: every successful run has `js i < i`, the draw `j = i` is
impossible (for `n = 2` it makes the run infeasible), and the identity
output can never occur (`n = 2` always yields `[1, 0]`). -/
theorem generatePerm_draw_bound :
    (∀ n js l, GeneratePerm n js = some l →
      ∀ m, 1 ≤ m → m ≤ n - 1 → js m < m) ∧
    GeneratePerm 2 (fun _ => 1) = none ∧
    GeneratePerm 2 (fun _ => 0) = some [1, 0] :=
  ⟨generatePerm_draws, by decide, by decide⟩

/-! ### ILMP (`shuffle.go` lines 90-220)

The three-move protocol is deterministic once the sampled values are
fixed, so the honest run is modelled by pure functions of the inputs, the
blinding exponents `θ` (the values returned by `Sample` in P1) and the
challenge `γ` (the value sampled by the verifier in V1). -/

/-- The `theta` array of `ILMPProve`: `θ[0] = θ[N] = 0` (never assigned),
`θ[1], ..., θ[N-1]` sampled. -/
def thetaFull (θs : List Int) : List Int := 0 :: θs ++ [0]

/-- The honest public element for a secret exponent `v`: `G^v mod P`. -/
def pubEl (pr : KeyParameters) (v : Int) : Int := powMod pr.G v pr.P

/-- P1 of `ILMPProve` (lines 108-118): the commitments
`A[i] = G^{x_i θ_i} * G^{y_i θ_{i+1}} mod P`. -/
def ilmpA (pr : KeyParameters) (x y θf : List Int) : List Int :=
  (List.range x.length).map (fun i =>
    powMod pr.G (x.getD i 0 * θf.getD i 0) pr.P *
      powMod pr.G (y.getD i 0 * θf.getD (i+1) 0) pr.P % pr.P)

/-- The value of the response `r[i]` (P2, lines 126-143): with
`num = y_{i+1} ⋯ y_{N-1}`, `den = x_{i+1} ⋯ x_{N-1}` and `inv` the
extended-GCD coefficient of `den` mod `Q`, the code computes
`s = num * inv * γ mod Q`, flips it to `Q - s` when `N-i-1` is odd, and
adds `θ_{i+1}` without further reduction. -/
def rEntry (pr : KeyParameters) (x y θf : List Int) (γ : Int) (i : Nat) : Int :=
  let s := sufProd y (i+1) * bezoutA (sufProd x (i+1)) pr.Q * γ % pr.Q
  (if (x.length - i - 1) % 2 = 1 then pr.Q - s else s) + θf.getD (i+1) 0

/-- The response loop of P2, running `i` from `N-2` down to `0` with the
cumulative `num`/`den` products, prepending each finished entry. -/
def ilmpRAux (pr : KeyParameters) (x y θf : List Int) (γ : Int) :
    Nat → Int → Int → List Int → List Int
  | 0, _, _, acc => acc
  | k+1, num, den, acc =>
    let num' := num * y.getD (k+1) 0
    let den' := den * x.getD (k+1) 0
    let s := num' * bezoutA den' pr.Q * γ % pr.Q
    ilmpRAux pr x y θf γ k num' den'
      (((if (x.length - k - 1) % 2 = 1 then pr.Q - s else s) + θf.getD (k+1) 0) :: acc)

/-- The transmitted response `r` of `ILMPProve`. -/
def ilmpR (pr : KeyParameters) (x y θf : List Int) (γ : Int) : List Int :=
  ilmpRAux pr x y θf γ (x.length - 1) 1 1 []

/-- Reading `r[N-2]` with the Go `int` index `N-2`, which is negative when
`N = 1`. -/
def idxNeg? (l : List Int) (j : Int) : Option Int :=
  if j < 0 then none else idx? l j.toNat

/-- The middle verification loop of `ILMPVerify` (lines 200-209), checking
`X_i^{r_{i-1}} * Y_i^{r_i} = A_i` for `k` indices starting at `i`. -/
def middleLoop (P : Int) (X Y A r : List Int) : Nat → Nat → Option Bool
  | _, 0 => some true
  | i, k+1 =>
    match idx? X i, idx? Y i, idx? A i, idx? r (i-1), idx? r i with
    | some xi, some yi, some ai, some rim, some ri =>
      if powMod xi rim P * powMod yi ri P % P = ai then
        middleLoop P X Y A r (i+1) k
      else some false
    | _, _, _, _, _ => none

/-- V2 of `ILMPVerify` (lines 182-219): first equation, middle loop, last
equation, in source order; `none` models an index-out-of-range panic
(in particular `r[0]` and `r[N-2]` for `N = 1`). -/
def ilmpCheck (pr : KeyParameters) (X Y A : List Int) (γ : Int) (r : List Int) :
    Option Bool :=
  match idx? Y 0, idx? r 0, idx? A 0, idx? X 0 with
  | some y0, some r0, some a0, some x0 =>
    if powMod y0 r0 pr.P ≠
        a0 * (if (X.length - 1) % 2 = 1 then powMod x0 (pr.Q - γ) pr.P
          else powMod x0 γ pr.P) % pr.P then
      some false
    else
      match middleLoop pr.P X Y A r 1 (X.length - 2) with
      | none => none
      | some false => some false
      | some true =>
        match idx? X (X.length - 1), idxNeg? r ((X.length : Int) - 2),
            idx? Y (X.length - 1), idx? A (X.length - 1) with
        | some xl, some rl, some yl, some al =>
          if powMod xl rl pr.P = al * powMod yl (pr.Q - γ) pr.P % pr.P then
            some true
          else some false
        | _, _, _, _ => none
  | _, _, _, _ => none

/-- Outcome of a verifier run: a panic, the length-mismatch error, the
peer-closed error, or a `(verified, nil)` return. -/
inductive RunResult where
  | crashed : RunResult
  | errLen : RunResult
  | errNil : RunResult
  | ok : Bool → RunResult
  deriving DecidableEq

/-- `ILMPVerify` (lines 151-220) with the received messages explicit:
length check, `nil` checks on both receives, then V2. -/
def ILMPVerify (pr : KeyParameters) (X Y : List Int) (A? : Option (List Int))
    (γ : Int) (r? : Option (List Int)) : RunResult :=
  if X.length ≠ Y.length then .errLen
  else
    match A? with
    | none => .errNil
    | some A =>
      match r? with
      | none => .errNil
      | some r =>
        match ilmpCheck pr X Y A γ r with
        | none => .crashed
        | some b => .ok b

/-- An honest ILMP run: the prover's length check, then the verifier
receives the honestly computed commitments and response. -/
def ILMPRun (pr : KeyParameters) (x y X Y : List Int) (θs : List Int)
    (γ : Int) : RunResult :=
  if x.length ≠ y.length then .errLen
  else ILMPVerify pr X Y (some (ilmpA pr x y (thetaFull θs))) γ
    (some (ilmpR pr x y (thetaFull θs) γ))

/-! ### The response list: shape and closed form -/

theorem sufProd_cons {l : List Int} {k : Nat} (h : k < l.length) :
    sufProd l k = l.getD k 0 * sufProd l (k+1) := by
  unfold sufProd
  rw [List.drop_eq_getElem_cons h, List.prod_cons, List.getD_eq_getElem?_getD,
    List.getElem?_eq_getElem h]
  rfl

theorem ilmpRAux_closed (pr : KeyParameters) (x y θf : List Int) (γ : Int)
    (hxy : y.length = x.length) :
    ∀ k, k ≤ x.length - 1 →
    ilmpRAux pr x y θf γ k (sufProd y (k+1)) (sufProd x (k+1))
        ((List.range' k (x.length - 1 - k)).map (rEntry pr x y θf γ))
      = (List.range' 0 (x.length - 1)).map (rEntry pr x y θf γ) := by
  intro k
  induction k with
  | zero => intro _; rfl
  | succ k ih =>
    intro hk
    show ilmpRAux pr x y θf γ k (sufProd y (k+2) * y.getD (k+1) 0)
        (sufProd x (k+2) * x.getD (k+1) 0) (_ :: _) = _
    have hnum : sufProd y (k+2) * y.getD (k+1) 0 = sufProd y (k+1) := by
      rw [sufProd_cons (show k+1 < y.length by omega), mul_comm]
    have hden : sufProd x (k+2) * x.getD (k+1) 0 = sufProd x (k+1) := by
      rw [sufProd_cons (show k+1 < x.length by omega), mul_comm]
    rw [hnum, hden]
    have hacc : ((if (x.length - k - 1) % 2 = 1 then
          pr.Q - sufProd y (k+1) * bezoutA (sufProd x (k+1)) pr.Q * γ % pr.Q
        else sufProd y (k+1) * bezoutA (sufProd x (k+1)) pr.Q * γ % pr.Q) +
          θf.getD (k+1) 0) ::
        (List.range' (k+1) (x.length - 1 - (k+1))).map (rEntry pr x y θf γ)
        = (List.range' k (x.length - 1 - k)).map (rEntry pr x y θf γ) := by
      have hcount : x.length - 1 - k = (x.length - 1 - (k+1)) + 1 := by omega
      rw [hcount, List.range'_succ, List.map_cons]
      rfl
    rw [hacc]
    exact ih (by omega)

theorem ilmpR_closed (pr : KeyParameters) (x y θf : List Int) (γ : Int)
    (hxy : y.length = x.length) :
    ilmpR pr x y θf γ = (List.range' 0 (x.length - 1)).map (rEntry pr x y θf γ) := by
  unfold ilmpR
  have h := ilmpRAux_closed pr x y θf γ hxy (x.length - 1) le_rfl
  have h1 : sufProd y (x.length - 1 + 1) = 1 := by
    unfold sufProd
    rw [List.drop_eq_nil_of_le (by omega)]
    rfl
  have h2 : sufProd x (x.length - 1 + 1) = 1 := by
    unfold sufProd
    rw [List.drop_eq_nil_of_le (by omega)]
    rfl
  have h3 : x.length - 1 - (x.length - 1) = 0 := by omega
  rw [h1, h2, h3] at h
  exact h

theorem ilmpR_length (pr : KeyParameters) (x y θf : List Int) (γ : Int)
    (hxy : y.length = x.length) :
    (ilmpR pr x y θf γ).length = x.length - 1 := by
  rw [ilmpR_closed pr x y θf γ hxy, List.length_map, List.length_range']

theorem ilmpR_getD (pr : KeyParameters) (x y θf : List Int) (γ : Int)
    (hxy : y.length = x.length) {i : Nat} (hi : i < x.length - 1) :
    (ilmpR pr x y θf γ).getD i 0 = rEntry pr x y θf γ i := by
  rw [ilmpR_closed pr x y θf γ hxy, List.getD_eq_getElem?_getD, List.getElem?_map,
    List.getElem?_range' 0 1 hi]
  show rEntry pr x y θf γ (0 + 1 * i) = _
  rw [Nat.zero_add, Nat.one_mul]

/-! ### Claim C5: the transmitted response values -/

/-- Congruence satisfied by each response entry: the computed value is
`θ_{i+1} + (-1)^{N-i-1} γ (∏_{j>i} y_j) (∏_{j>i} x_j)⁻¹` mod `Q`, where
the inverse is the extended-GCD coefficient `bezoutA`. -/
theorem rEntry_congr (pr : KeyParameters) (x y θf : List Int) (γ : Int)
    (i : Nat) :
    rEntry pr x y θf γ i ≡
      θf.getD (i+1) 0 + (-1) ^ (x.length - i - 1) *
        (γ * (sufProd y (i+1) * bezoutA (sufProd x (i+1)) pr.Q)) [ZMOD pr.Q] := by
  unfold rEntry
  set s0 := sufProd y (i+1) * bezoutA (sufProd x (i+1)) pr.Q * γ with hs0
  have hsc : s0 % pr.Q ≡ s0 [ZMOD pr.Q] := Int.emod_emod s0 pr.Q
  have hQ0 : (pr.Q : Int) ≡ 0 [ZMOD pr.Q] := Int.modEq_zero_iff_dvd.mpr dvd_rfl
  have hmain : (if (x.length - i - 1) % 2 = 1 then pr.Q - s0 % pr.Q else s0 % pr.Q)
      ≡ (-1) ^ (x.length - i - 1) *
        (γ * (sufProd y (i+1) * bezoutA (sufProd x (i+1)) pr.Q)) [ZMOD pr.Q] := by
    by_cases hpar : (x.length - i - 1) % 2 = 1
    · rw [if_pos hpar, Odd.neg_one_pow (Nat.odd_iff.mpr hpar)]
      calc pr.Q - s0 % pr.Q
          ≡ 0 - s0 % pr.Q [ZMOD pr.Q] := hQ0.sub_right _
        _ = -(s0 % pr.Q) := by ring
        _ ≡ -s0 [ZMOD pr.Q] := hsc.neg
        _ = -1 * (γ * (sufProd y (i+1) * bezoutA (sufProd x (i+1)) pr.Q)) := by
            rw [hs0]
            ring
    · rw [if_neg hpar, Even.neg_one_pow (Nat.even_iff.mpr (by omega))]
      calc s0 % pr.Q
          ≡ s0 [ZMOD pr.Q] := hsc
        _ = 1 * (γ * (sufProd y (i+1) * bezoutA (sufProd x (i+1)) pr.Q)) := by
            rw [hs0]
            ring
  calc (if (x.length - i - 1) % 2 = 1 then pr.Q - s0 % pr.Q else s0 % pr.Q)
        + θf.getD (i+1) 0
      ≡ (-1) ^ (x.length - i - 1) *
          (γ * (sufProd y (i+1) * bezoutA (sufProd x (i+1)) pr.Q))
        + θf.getD (i+1) 0 [ZMOD pr.Q] := hmain.add_right _
    _ = θf.getD (i+1) 0 + (-1) ^ (x.length - i - 1) *
          (γ * (sufProd y (i+1) * bezoutA (sufProd x (i+1)) pr.Q)) := by ring

/-- C5: in `ILMPProve`, for honest input of length `N ≥ 2` and any
challenge `γ`, the transmitted response satisfies, for each `i ≤ N-2`,
`r_i ≡ θ_{i+1} + (-1)^{N-i-1} γ (∏_{j=i+1}^{N-1} y_j) (∏_{j=i+1}^{N-1} x_j)⁻¹
(mod Q)`, the inverse being the extended-GCD coefficient mod `Q`, with the
sign flip (subtracting from `Q`) exactly when `N-i-1` is odd. -/
theorem ilmpProve_response (pr : KeyParameters) (x y θs : List Int) (γ : Int)
    (hxy : y.length = x.length) (hN : 2 ≤ x.length)
    {i : Nat} (hi : i < x.length - 1) :
    (ilmpR pr x y (thetaFull θs) γ).getD i 0 ≡
      (thetaFull θs).getD (i+1) 0 + (-1) ^ (x.length - i - 1) *
        (γ * (sufProd y (i+1) * bezoutA (sufProd x (i+1)) pr.Q)) [ZMOD pr.Q] := by
  rw [ilmpR_getD pr x y (thetaFull θs) γ hxy hi]
  exact rEntry_congr pr x y (thetaFull θs) γ i

/-- Witness for C5: `x = [2,3]`, `y = [4,5]`, `θ = [7]`, `γ = 3`, `i = 0`
in the `(23, 2, 11)` group. -/
theorem ilmpProve_response_witness :
    (([4, 5] : List Int).length = ([2, 3] : List Int).length ∧
      2 ≤ ([2, 3] : List Int).length ∧ 0 < ([2, 3] : List Int).length - 1) ∧
    (ilmpR ⟨23, 2, 11⟩ [2, 3] [4, 5] (thetaFull [7]) 3).getD 0 0 ≡
      (thetaFull [7]).getD 1 0 + (-1) ^ (([2, 3] : List Int).length - 0 - 1) *
        (3 * (sufProd [4, 5] 1 * bezoutA (sufProd [2, 3] 1) 11)) [ZMOD 11] :=
  ⟨by decide,
    ilmpProve_response ⟨23, 2, 11⟩ [2, 3] [4, 5] [7] 3 (by decide) (by decide)
      (by decide)⟩

/-! ### Claim C6: `ILMPVerify` against the specified equations

The equations below are written from the spec's verification table (first /
middle / last), to be compared with the sequential early-return code. -/

/-- First equation: `Y_0^{r_0} = A_0 · X_0^e mod P` with `e = Q - γ` when
`N-1` is odd and `e = γ` otherwise. -/
def ilmpFirstEq (pr : KeyParameters) (X Y A : List Int) (γ : Int)
    (r : List Int) : Prop :=
  powMod (Y.getD 0 0) (r.getD 0 0) pr.P =
    A.getD 0 0 * (if (X.length - 1) % 2 = 1 then powMod (X.getD 0 0) (pr.Q - γ) pr.P
      else powMod (X.getD 0 0) γ pr.P) % pr.P

/-- Middle equation at index `i`: `X_i^{r_{i-1}} · Y_i^{r_i} = A_i mod P`. -/
def ilmpMiddleEq (pr : KeyParameters) (X Y A r : List Int) (i : Nat) : Prop :=
  powMod (X.getD i 0) (r.getD (i-1) 0) pr.P *
    powMod (Y.getD i 0) (r.getD i 0) pr.P % pr.P = A.getD i 0

/-- Last equation: `X_{N-1}^{r_{N-2}} = A_{N-1} · Y_{N-1}^{Q-γ} mod P`. -/
def ilmpLastEq (pr : KeyParameters) (X Y A : List Int) (γ : Int)
    (r : List Int) : Prop :=
  powMod (X.getD (X.length - 1) 0) (r.getD (X.length - 2) 0) pr.P =
    A.getD (X.length - 1) 0 *
      powMod (Y.getD (X.length - 1) 0) (pr.Q - γ) pr.P % pr.P

/-- All verification equations of the spec's table. -/
def ilmpEqs (pr : KeyParameters) (X Y A : List Int) (γ : Int)
    (r : List Int) : Prop :=
  ilmpFirstEq pr X Y A γ r ∧
  (∀ i, i < X.length - 2 → ilmpMiddleEq pr X Y A r (i+1)) ∧
  ilmpLastEq pr X Y A γ r

instance (pr : KeyParameters) (X Y A : List Int) (γ : Int) (r : List Int) :
    Decidable (ilmpEqs pr X Y A γ r) := by
  unfold ilmpEqs ilmpFirstEq ilmpMiddleEq ilmpLastEq
  exact inferInstance

/-- The middle loop never panics and returns `true` exactly when every
checked equation holds, given well-formed lengths. -/
theorem middleLoop_char (P : Int) (X Y A r : List Int)
    (hY : Y.length = X.length) (hA : A.length = X.length)
    (hr : r.length = X.length - 1) (hN : 2 ≤ X.length) :
    ∀ k i, 1 ≤ i → i + k ≤ X.length - 1 →
      (middleLoop P X Y A r i k = some true ↔
        ∀ m, i ≤ m → m < i + k →
          powMod (X.getD m 0) (r.getD (m-1) 0) P *
            powMod (Y.getD m 0) (r.getD m 0) P % P = A.getD m 0) ∧
      (middleLoop P X Y A r i k = some true ∨
        middleLoop P X Y A r i k = some false) := by
  intro k
  induction k with
  | zero =>
    intro i _ _
    constructor
    · constructor
      · intro _ m h1 h2
        omega
      · intro _
        rfl
    · exact Or.inl rfl
  | succ k ih =>
    intro i hi hik
    have hstep : middleLoop P X Y A r i (k+1)
        = if powMod (X.getD i 0) (r.getD (i-1) 0) P *
              powMod (Y.getD i 0) (r.getD i 0) P % P = A.getD i 0 then
            middleLoop P X Y A r (i+1) k
          else some false := by
      show (match idx? X i, idx? Y i, idx? A i, idx? r (i-1), idx? r i with
        | some xi, some yi, some ai, some rim, some ri =>
          if powMod xi rim P * powMod yi ri P % P = ai then
            middleLoop P X Y A r (i+1) k
          else some false
        | _, _, _, _, _ => none) = _
      rw [idx?_eq_some (by omega), idx?_eq_some (by omega), idx?_eq_some (by omega),
        idx?_eq_some (by omega), idx?_eq_some (by omega)]
    obtain ⟨ihiff, ihtot⟩ := ih (i+1) (by omega) (by omega)
    by_cases heq : powMod (X.getD i 0) (r.getD (i-1) 0) P *
        powMod (Y.getD i 0) (r.getD i 0) P % P = A.getD i 0
    · rw [hstep, if_pos heq]
      refine ⟨⟨fun hrest m h1 h2 => ?_, fun hall => ?_⟩, ihtot⟩
      · rcases Nat.eq_or_lt_of_le h1 with he | hlt
        · rw [← he]
          exact heq
        · exact ihiff.mp hrest m hlt (by omega)
      · exact ihiff.mpr fun m h1 h2 => hall m (by omega) (by omega)
    · rw [hstep, if_neg heq]
      refine ⟨⟨fun hfalse => absurd hfalse (by simp), fun hall => ?_⟩, Or.inr rfl⟩
      exact absurd (hall i le_rfl (by omega)) heq

/-- Shared characterization: for well-formed lengths, V2 of the verifier
returns exactly the truth value of the specified equation set, never a
panic. -/
theorem ilmpCheck_char (pr : KeyParameters) (X Y A r : List Int) (γ : Int)
    (hN : 2 ≤ X.length) (hY : Y.length = X.length)
    (hA : A.length = X.length) (hr : r.length = X.length - 1) :
    ilmpCheck pr X Y A γ r
      = (if ilmpEqs pr X Y A γ r then some true else some false) := by
  have hfirst : idx? Y 0 = some (Y.getD 0 0) := idx?_eq_some (by omega)
  have hr0 : idx? r 0 = some (r.getD 0 0) := idx?_eq_some (by omega)
  have hA0 : idx? A 0 = some (A.getD 0 0) := idx?_eq_some (by omega)
  have hX0 : idx? X 0 = some (X.getD 0 0) := idx?_eq_some (by omega)
  have hXl : idx? X (X.length - 1) = some (X.getD (X.length - 1) 0) :=
    idx?_eq_some (by omega)
  have hYl : idx? Y (X.length - 1) = some (Y.getD (X.length - 1) 0) :=
    idx?_eq_some (by omega)
  have hAl : idx? A (X.length - 1) = some (A.getD (X.length - 1) 0) :=
    idx?_eq_some (by omega)
  have hrl : idxNeg? r ((X.length : Int) - 2) = some (r.getD (X.length - 2) 0) := by
    unfold idxNeg?
    rw [if_neg (by omega)]
    have ht : ((X.length : Int) - 2).toNat = X.length - 2 := by omega
    rw [ht]
    exact idx?_eq_some (by omega)
  obtain ⟨hmidiff, hmidtot⟩ :=
    middleLoop_char pr.P X Y A r hY hA hr hN (X.length - 2) 1 le_rfl (by omega)
  simp only [ilmpCheck, hfirst, hr0, hA0, hX0]
  by_cases h1 : ilmpFirstEq pr X Y A γ r
  · rw [if_neg (by exact fun hc => hc h1)]
    rcases hmidtot with hmt | hmf
    · rw [hmt]
      simp only [hXl, hYl, hAl, hrl]
      by_cases h3 : ilmpLastEq pr X Y A γ r
      · have h3' : powMod (X.getD (X.length - 1) 0) (r.getD (X.length - 2) 0) pr.P =
            A.getD (X.length - 1) 0 *
              powMod (Y.getD (X.length - 1) 0) (pr.Q - γ) pr.P % pr.P := h3
        rw [if_pos h3',
          if_pos ⟨h1, fun i hi => hmidiff.mp hmt (i+1) (by omega) (by omega), h3⟩]
      · have h3' : ¬ (powMod (X.getD (X.length - 1) 0) (r.getD (X.length - 2) 0) pr.P =
            A.getD (X.length - 1) 0 *
              powMod (Y.getD (X.length - 1) 0) (pr.Q - γ) pr.P % pr.P) := h3
        rw [if_neg h3', if_neg (by exact fun hc => h3 hc.2.2)]
    · rw [hmf, if_neg (by
        intro hc
        have := hmidiff.mpr (fun m hm1 hm2 => by
          obtain ⟨i, rfl⟩ : ∃ i, m = i + 1 := ⟨m - 1, by omega⟩
          exact hc.2.1 i (by omega))
        rw [this] at hmf
        exact Bool.noConfusion (Option.some.inj hmf))]
  · rw [if_pos (by exact h1), if_neg (by exact fun hc => h1 hc.1)]

/-- C6: `ILMPVerify` (for well-formed messages, `N ≥ 2`) returns
`(true, nil)` exactly when all of the spec's verification equations hold
mod `P`, and returns `(false, nil)` — a legitimate negative outcome, not
an error — exactly when some equation fails. -/
theorem ilmpVerify_iff (pr : KeyParameters) (X Y A r : List Int) (γ : Int)
    (hN : 2 ≤ X.length) (hY : Y.length = X.length)
    (hA : A.length = X.length) (hr : r.length = X.length - 1) :
    (ILMPVerify pr X Y (some A) γ (some r) = .ok true ↔ ilmpEqs pr X Y A γ r) ∧
    (ILMPVerify pr X Y (some A) γ (some r) = .ok false ↔ ¬ ilmpEqs pr X Y A γ r) := by
  have hchk := ilmpCheck_char pr X Y A r γ hN hY hA hr
  unfold ILMPVerify
  rw [if_neg (by omega)]
  show ((match ilmpCheck pr X Y A γ r with
    | none => RunResult.crashed
    | some b => RunResult.ok b) = RunResult.ok true ↔ _) ∧
    ((match ilmpCheck pr X Y A γ r with
    | none => RunResult.crashed
    | some b => RunResult.ok b) = RunResult.ok false ↔ _)
  rw [hchk]
  by_cases h : ilmpEqs pr X Y A γ r
  · rw [if_pos h]
    refine ⟨⟨fun _ => h, fun _ => rfl⟩, ⟨fun hc => ?_, fun hc => absurd h hc⟩⟩
    exact Bool.noConfusion (RunResult.ok.inj hc)
  · rw [if_neg h]
    refine ⟨⟨fun hc => ?_, fun hc => absurd hc h⟩, ⟨fun _ => h, fun _ => rfl⟩⟩
    exact Bool.noConfusion (RunResult.ok.inj hc)

/-- Witness for C6: a concrete well-formed (rejecting) transcript at
`N = 2` in the `(23, 2, 11)` group. -/
theorem ilmpVerify_iff_witness :
    (2 ≤ ([4, 2] : List Int).length ∧ ([3, 5] : List Int).length = 2 ∧
      ([7, 9] : List Int).length = 2 ∧ ([6] : List Int).length = 1) ∧
    ((ILMPVerify ⟨23, 2, 11⟩ [4, 2] [3, 5] (some [7, 9]) 5 (some [6]) = .ok true ↔
        ilmpEqs ⟨23, 2, 11⟩ [4, 2] [3, 5] [7, 9] 5 [6]) ∧
      (ILMPVerify ⟨23, 2, 11⟩ [4, 2] [3, 5] (some [7, 9]) 5 (some [6]) = .ok false ↔
        ¬ ilmpEqs ⟨23, 2, 11⟩ [4, 2] [3, 5] [7, 9] 5 [6])) :=
  ⟨by decide,
    ilmpVerify_iff ⟨23, 2, 11⟩ [4, 2] [3, 5] [7, 9] [6] 5 (by decide) (by decide)
      (by decide) (by decide)⟩

/-! ### Completeness machinery -/

/-- Transport of an `Int` congruence mod a positive `q` to `ZMod q.toNat`. -/
theorem modEq_iff_zmod {q : Int} (hq : 0 < q) (a b : Int) :
    a ≡ b [ZMOD q] ↔ ((a : ZMod q.toNat) = (b : ZMod q.toNat)) := by
  rw [ZMod.intCast_eq_intCast_iff a b q.toNat, show ((q.toNat : ℕ) : ℤ) = q by omega]

theorem sufProd_nonneg {l : List Int} (h : ∀ i, i < l.length → 0 ≤ l.getD i 0)
    (k : Nat) : 0 ≤ sufProd l k := by
  apply List.prod_nonneg
  intro a ha
  have ha' : a ∈ l := List.mem_of_mem_drop ha
  obtain ⟨n, hn, he⟩ := List.mem_iff_getElem.mp ha'
  have := h n hn
  rw [List.getD_eq_getElem?_getD, List.getElem?_eq_getElem hn] at this
  simpa [he] using this

theorem sufProd_coprime {l : List Int} {q : Int} {k : Nat}
    (h : ∀ j, k ≤ j → j < l.length → Int.gcd (l.getD j 0) q = 1) :
    Int.gcd (sufProd l k) q = 1 := by
  rcases Nat.le_total l.length k with hk | hk
  · unfold sufProd
    rw [List.drop_eq_nil_of_le hk]
    simp [Int.gcd]
  · obtain ⟨d, hd⟩ : ∃ d, l.length - k = d := ⟨l.length - k, rfl⟩
    induction d generalizing k with
    | zero =>
      unfold sufProd
      rw [List.drop_eq_nil_of_le (by omega)]
      simp [Int.gcd]
    | succ d ihd =>
      rw [sufProd_cons (show k < l.length by omega)]
      apply Int.isCoprime_iff_gcd_eq_one.mp
      apply IsCoprime.mul_left
      · exact Int.isCoprime_iff_gcd_eq_one.mpr (h k le_rfl (by omega))
      · exact Int.isCoprime_iff_gcd_eq_one.mpr
          (ihd (fun j h1 h2 => h j (by omega) h2) (by omega) (by omega))

theorem rEntry_nonneg (pr : KeyParameters) (x y θf : List Int) (γ : Int)
    (hQ : 0 < pr.Q) (hθ : ∀ i, 0 ≤ θf.getD i 0) (i : Nat) :
    0 ≤ rEntry pr x y θf γ i := by
  simp only [rEntry]
  have h1 : 0 ≤ sufProd y (i+1) * bezoutA (sufProd x (i+1)) pr.Q * γ % pr.Q :=
    Int.emod_nonneg _ (by omega)
  have h2 : sufProd y (i+1) * bezoutA (sufProd x (i+1)) pr.Q * γ % pr.Q < pr.Q :=
    Int.emod_lt_of_pos _ hQ
  have h3 := hθ (i+1)
  split_ifs <;> omega

theorem ilmpA_length (pr : KeyParameters) (x y θf : List Int) :
    (ilmpA pr x y θf).length = x.length := by
  unfold ilmpA
  rw [List.length_map, List.length_range]

theorem ilmpA_getD (pr : KeyParameters) (x y θf : List Int) {i : Nat}
    (hi : i < x.length)
    (hx : 0 ≤ x.getD i 0 * θf.getD i 0) (hy : 0 ≤ y.getD i 0 * θf.getD (i+1) 0) :
    (ilmpA pr x y θf).getD i 0
      = powMod pr.G (x.getD i 0 * θf.getD i 0 + y.getD i 0 * θf.getD (i+1) 0) pr.P := by
  unfold ilmpA
  rw [List.getD_eq_getElem?_getD, List.getElem?_map, List.getElem?_range hi]
  show powMod pr.G (x.getD i 0 * θf.getD i 0) pr.P *
      powMod pr.G (y.getD i 0 * θf.getD (i+1) 0) pr.P % pr.P = _
  exact powMod_mul hx hy

theorem thetaFull_length (θs : List Int) :
    (thetaFull θs).length = θs.length + 2 := by
  simp [thetaFull]

theorem thetaFull_getD_zero (θs : List Int) : (thetaFull θs).getD 0 0 = 0 := rfl

theorem thetaFull_getD_succ (θs : List Int) {i : Nat} (hi : i < θs.length) :
    (thetaFull θs).getD (i+1) 0 = θs.getD i 0 := by
  unfold thetaFull
  simp only [List.getD_eq_getElem?_getD, List.getElem?_append,
    List.getElem?_cons_succ, List.length_cons]
  rw [if_pos (by omega)]

theorem thetaFull_getD_last (θs : List Int) :
    (thetaFull θs).getD (θs.length + 1) 0 = 0 := by
  unfold thetaFull
  simp only [List.getD_eq_getElem?_getD, List.length_cons]
  rw [List.getElem?_append_right (by simp)]
  simp

theorem thetaFull_nonneg (θs : List Int)
    (h : ∀ i, i < θs.length → 0 ≤ θs.getD i 0) :
    ∀ i, 0 ≤ (thetaFull θs).getD i 0 := by
  intro i
  rcases i with _ | i
  · rw [thetaFull_getD_zero]
  · rcases Nat.lt_trichotomy i θs.length with hlt | heq | hgt
    · rw [thetaFull_getD_succ θs hlt]
      exact h i hlt
    · rw [heq, thetaFull_getD_last]
    · rw [List.getD_eq_getElem?_getD, List.getElem?_eq_none
          (by rw [thetaFull_length]; omega)]
      exact le_refl 0

theorem sufProd_all {l : List Int} {k : Nat} (h : l.length ≤ k) :
    sufProd l k = 1 := by
  unfold sufProd
  rw [List.drop_eq_nil_of_le h]
  rfl

/-- The first verification equation holds on an honest transcript. -/
theorem honest_first_eq (pr : KeyParameters) (x y X Y θf : List Int) (γ : Int)
    (hQ : 0 < pr.Q) (hord : pr.G ^ pr.Q.toNat % pr.P = 1 % pr.P)
    (hN : 2 ≤ x.length) (hxy : y.length = x.length) (hXx : X.length = x.length)
    (hXel : ∀ i, i < x.length → X.getD i 0 = powMod pr.G (x.getD i 0) pr.P)
    (hYel : ∀ i, i < x.length → Y.getD i 0 = powMod pr.G (y.getD i 0) pr.P)
    (hx0 : ∀ i, i < x.length → 0 ≤ x.getD i 0)
    (hy0 : ∀ i, i < x.length → 0 ≤ y.getD i 0)
    (hxco : ∀ i, 1 ≤ i → i < x.length → Int.gcd (x.getD i 0) pr.Q = 1)
    (hθ0 : ∀ i, 0 ≤ θf.getD i 0) (hθfirst : θf.getD 0 0 = 0)
    (hγ0 : 0 ≤ γ) (hγQ : γ ≤ pr.Q)
    (hprod : x.prod ≡ y.prod [ZMOD pr.Q]) :
    ilmpFirstEq pr X Y (ilmpA pr x y θf) γ (ilmpR pr x y θf γ) := by
  unfold ilmpFirstEq
  rw [hXx, hYel 0 (by omega), hXel 0 (by omega),
    ilmpR_getD pr x y θf γ hxy (by omega),
    ilmpA_getD pr x y θf (by omega)
      (mul_nonneg (hx0 0 (by omega)) (hθ0 0)) (mul_nonneg (hy0 0 (by omega)) (hθ0 1)),
    powMod_pow (hy0 0 (by omega)) (rEntry_nonneg pr x y θf γ hQ hθ0 0), hθfirst]
  have hA0nn : 0 ≤ x.getD 0 0 * 0 + y.getD 0 0 * θf.getD 1 0 :=
    add_nonneg (by simp) (mul_nonneg (hy0 0 (by omega)) (hθ0 1))
  have hLnn : 0 ≤ y.getD 0 0 * rEntry pr x y θf γ 0 :=
    mul_nonneg (hy0 0 (by omega)) (rEntry_nonneg pr x y θf γ hQ hθ0 0)
  -- common congruence ingredients, in `ZMod Q`
  have hr0c := (modEq_iff_zmod hQ _ _).mp (rEntry_congr pr x y θf γ 0)
  rw [show x.length - 0 - 1 = x.length - 1 from rfl,
    show (0:Nat) + 1 = 1 from rfl] at hr0c
  push_cast at hr0c
  have hI1 := (modEq_iff_zmod hQ _ _).mp
    (bezoutA_inv (sufProd_nonneg hx0 1) hQ.le
      (sufProd_coprime (fun j h1 h2 => hxco j (by omega) h2)))
  push_cast at hI1
  have hpz := (modEq_iff_zmod hQ _ _).mp hprod
  have hy0p : sufProd y 0 = y.prod := rfl
  have hx0p : sufProd x 0 = x.prod := rfl
  rw [← hy0p, ← hx0p] at hpz
  have hsyi : sufProd y 0 = y.getD 0 0 * sufProd y 1 :=
    sufProd_cons (show 0 < y.length by omega)
  have hsyz := congrArg (fun t : ℤ => (t : ZMod pr.Q.toNat)) hsyi
  push_cast at hsyz
  have hsxi : sufProd x 0 = x.getD 0 0 * sufProd x 1 :=
    sufProd_cons (show 0 < x.length by omega)
  have hsxz := congrArg (fun t : ℤ => (t : ZMod pr.Q.toNat)) hsxi
  push_cast at hsxz
  have hQz : ((pr.Q : ℤ) : ZMod pr.Q.toNat) = 0 := by
    rw [ZMod.intCast_zmod_eq_zero_iff_dvd]
    exact ⟨1, by rw [mul_one]; omega⟩
  by_cases hpar : (x.length - 1) % 2 = 1
  · rw [if_pos hpar, powMod_pow (hx0 0 (by omega)) (by omega),
      powMod_mul hA0nn (mul_nonneg (hx0 0 (by omega)) (by omega))]
    apply powMod_congr hQ hord hLnn
      (add_nonneg hA0nn (mul_nonneg (hx0 0 (by omega)) (by omega)))
    rw [modEq_iff_zmod hQ]
    rw [Odd.neg_one_pow (Nat.odd_iff.mpr hpar)] at hr0c
    push_cast
    linear_combination (y.getD 0 0 : ZMod pr.Q.toNat) * hr0c
      - (x.getD 0 0 : ZMod pr.Q.toNat) * hQz
      + (γ : ZMod pr.Q.toNat) * (bezoutA (sufProd x 1) pr.Q : ZMod pr.Q.toNat) * hsyz
      + (γ : ZMod pr.Q.toNat) * (bezoutA (sufProd x 1) pr.Q : ZMod pr.Q.toNat) * hpz
      - (γ : ZMod pr.Q.toNat) * (bezoutA (sufProd x 1) pr.Q : ZMod pr.Q.toNat) * hsxz
      - (γ : ZMod pr.Q.toNat) * (x.getD 0 0 : ZMod pr.Q.toNat) * hI1
  · rw [if_neg hpar, powMod_pow (hx0 0 (by omega)) hγ0,
      powMod_mul hA0nn (mul_nonneg (hx0 0 (by omega)) hγ0)]
    apply powMod_congr hQ hord hLnn
      (add_nonneg hA0nn (mul_nonneg (hx0 0 (by omega)) hγ0))
    rw [modEq_iff_zmod hQ]
    rw [Even.neg_one_pow (Nat.even_iff.mpr (by omega))] at hr0c
    push_cast
    linear_combination (y.getD 0 0 : ZMod pr.Q.toNat) * hr0c
      - (γ : ZMod pr.Q.toNat) * (bezoutA (sufProd x 1) pr.Q : ZMod pr.Q.toNat) * hsyz
      - (γ : ZMod pr.Q.toNat) * (bezoutA (sufProd x 1) pr.Q : ZMod pr.Q.toNat) * hpz
      + (γ : ZMod pr.Q.toNat) * (bezoutA (sufProd x 1) pr.Q : ZMod pr.Q.toNat) * hsxz
      + (γ : ZMod pr.Q.toNat) * (x.getD 0 0 : ZMod pr.Q.toNat) * hI1

/-- The middle verification equations hold on an honest transcript. -/
theorem honest_middle_eq (pr : KeyParameters) (x y X Y θf : List Int) (γ : Int)
    (hQ : 0 < pr.Q) (hord : pr.G ^ pr.Q.toNat % pr.P = 1 % pr.P)
    (hN : 2 ≤ x.length) (hxy : y.length = x.length)
    (hXel : ∀ i, i < x.length → X.getD i 0 = powMod pr.G (x.getD i 0) pr.P)
    (hYel : ∀ i, i < x.length → Y.getD i 0 = powMod pr.G (y.getD i 0) pr.P)
    (hx0 : ∀ i, i < x.length → 0 ≤ x.getD i 0)
    (hy0 : ∀ i, i < x.length → 0 ≤ y.getD i 0)
    (hxco : ∀ i, 1 ≤ i → i < x.length → Int.gcd (x.getD i 0) pr.Q = 1)
    (hθ0 : ∀ i, 0 ≤ θf.getD i 0) (hγ0 : 0 ≤ γ)
    {m : Nat} (hm1 : 1 ≤ m) (hm2 : m ≤ x.length - 2) :
    ilmpMiddleEq pr X Y (ilmpA pr x y θf) (ilmpR pr x y θf γ) m := by
  unfold ilmpMiddleEq
  rw [hXel m (by omega), hYel m (by omega),
    ilmpR_getD pr x y θf γ hxy (show m - 1 < x.length - 1 by omega),
    ilmpR_getD pr x y θf γ hxy (show m < x.length - 1 by omega),
    ilmpA_getD pr x y θf (by omega)
      (mul_nonneg (hx0 m (by omega)) (hθ0 m)) (mul_nonneg (hy0 m (by omega)) (hθ0 (m+1))),
    powMod_pow (hx0 m (by omega)) (rEntry_nonneg pr x y θf γ hQ hθ0 (m-1)),
    powMod_pow (hy0 m (by omega)) (rEntry_nonneg pr x y θf γ hQ hθ0 m),
    powMod_mul
      (mul_nonneg (hx0 m (by omega)) (rEntry_nonneg pr x y θf γ hQ hθ0 (m-1)))
      (mul_nonneg (hy0 m (by omega)) (rEntry_nonneg pr x y θf γ hQ hθ0 m))]
  apply powMod_congr hQ hord
    (add_nonneg
      (mul_nonneg (hx0 m (by omega)) (rEntry_nonneg pr x y θf γ hQ hθ0 (m-1)))
      (mul_nonneg (hy0 m (by omega)) (rEntry_nonneg pr x y θf γ hQ hθ0 m)))
    (add_nonneg (mul_nonneg (hx0 m (by omega)) (hθ0 m))
      (mul_nonneg (hy0 m (by omega)) (hθ0 (m+1))))
  rw [modEq_iff_zmod hQ]
  have hra := (modEq_iff_zmod hQ _ _).mp (rEntry_congr pr x y θf γ (m-1))
  rw [show m - 1 + 1 = m from by omega,
    show x.length - (m-1) - 1 = (x.length - m - 1) + 1 from by omega, pow_succ] at hra
  push_cast at hra
  have hrb := (modEq_iff_zmod hQ _ _).mp (rEntry_congr pr x y θf γ m)
  push_cast at hrb
  have hIm := (modEq_iff_zmod hQ _ _).mp
    (bezoutA_inv (sufProd_nonneg hx0 m) hQ.le
      (sufProd_coprime (fun j h1 h2 => hxco j (by omega) h2)))
  push_cast at hIm
  have hIm1 := (modEq_iff_zmod hQ _ _).mp
    (bezoutA_inv (sufProd_nonneg hx0 (m+1)) hQ.le
      (sufProd_coprime (fun j h1 h2 => hxco j (by omega) h2)))
  push_cast at hIm1
  have hsymi : sufProd y m = y.getD m 0 * sufProd y (m+1) :=
    sufProd_cons (show m < y.length by omega)
  have hsym := congrArg (fun t : ℤ => (t : ZMod pr.Q.toNat)) hsymi
  push_cast at hsym
  have hsxmi : sufProd x m = x.getD m 0 * sufProd x (m+1) :=
    sufProd_cons (show m < x.length by omega)
  have hsxm := congrArg (fun t : ℤ => (t : ZMod pr.Q.toNat)) hsxmi
  push_cast at hsxm
  have hw : (x.getD m 0 : ZMod pr.Q.toNat) * (bezoutA (sufProd x m) pr.Q : ℤ)
      = ((bezoutA (sufProd x (m+1)) pr.Q : ℤ) : ZMod pr.Q.toNat) := by
    push_cast
    linear_combination
      (-(bezoutA (sufProd x m) pr.Q : ZMod pr.Q.toNat) *
        (bezoutA (sufProd x (m+1)) pr.Q : ZMod pr.Q.toNat)) * hsxm
      - (x.getD m 0 : ZMod pr.Q.toNat) *
          (bezoutA (sufProd x m) pr.Q : ZMod pr.Q.toNat) * hIm1
      + (bezoutA (sufProd x (m+1)) pr.Q : ZMod pr.Q.toNat) * hIm
  have hkey : (x.getD m 0 : ZMod pr.Q.toNat) * (sufProd y m : ℤ) *
        (bezoutA (sufProd x m) pr.Q : ℤ)
      = (y.getD m 0 : ZMod pr.Q.toNat) * (sufProd y (m+1) : ℤ) *
        (bezoutA (sufProd x (m+1)) pr.Q : ℤ) := by
    push_cast
    push_cast at hw
    linear_combination (x.getD m 0 : ZMod pr.Q.toNat) *
        (bezoutA (sufProd x m) pr.Q : ZMod pr.Q.toNat) * hsym
      + (y.getD m 0 : ZMod pr.Q.toNat) * (sufProd y (m+1) : ZMod pr.Q.toNat) * hw
  push_cast
  push_cast at hkey
  linear_combination (x.getD m 0 : ZMod pr.Q.toNat) * hra
    + (y.getD m 0 : ZMod pr.Q.toNat) * hrb
    - ((-1 : ZMod pr.Q.toNat) ^ (x.length - m - 1) * (γ : ZMod pr.Q.toNat)) * hkey

/-- The last verification equation holds on an honest transcript. -/
theorem honest_last_eq (pr : KeyParameters) (x y X Y θf : List Int) (γ : Int)
    (hQ : 0 < pr.Q) (hord : pr.G ^ pr.Q.toNat % pr.P = 1 % pr.P)
    (hN : 2 ≤ x.length) (hxy : y.length = x.length) (hXx : X.length = x.length)
    (hXel : ∀ i, i < x.length → X.getD i 0 = powMod pr.G (x.getD i 0) pr.P)
    (hYel : ∀ i, i < x.length → Y.getD i 0 = powMod pr.G (y.getD i 0) pr.P)
    (hx0 : ∀ i, i < x.length → 0 ≤ x.getD i 0)
    (hy0 : ∀ i, i < x.length → 0 ≤ y.getD i 0)
    (hxco : ∀ i, 1 ≤ i → i < x.length → Int.gcd (x.getD i 0) pr.Q = 1)
    (hθ0 : ∀ i, 0 ≤ θf.getD i 0) (hθlast : θf.getD x.length 0 = 0)
    (hγ0 : 0 ≤ γ) (hγQ : γ ≤ pr.Q) :
    ilmpLastEq pr X Y (ilmpA pr x y θf) γ (ilmpR pr x y θf γ) := by
  unfold ilmpLastEq
  rw [hXx, hXel (x.length - 1) (by omega), hYel (x.length - 1) (by omega),
    ilmpR_getD pr x y θf γ hxy (show x.length - 2 < x.length - 1 by omega),
    ilmpA_getD pr x y θf (by omega)
      (mul_nonneg (hx0 (x.length - 1) (by omega)) (hθ0 (x.length - 1)))
      (mul_nonneg (hy0 (x.length - 1) (by omega)) (hθ0 (x.length - 1 + 1))),
    show x.length - 1 + 1 = x.length from by omega, hθlast,
    powMod_pow (hx0 (x.length - 1) (by omega))
      (rEntry_nonneg pr x y θf γ hQ hθ0 (x.length - 2)),
    powMod_pow (hy0 (x.length - 1) (by omega)) (show (0:Int) ≤ pr.Q - γ by omega),
    powMod_mul
      (add_nonneg (mul_nonneg (hx0 (x.length - 1) (by omega)) (hθ0 (x.length - 1)))
        (by simp))
      (mul_nonneg (hy0 (x.length - 1) (by omega)) (by omega))]
  apply powMod_congr hQ hord
    (mul_nonneg (hx0 (x.length - 1) (by omega))
      (rEntry_nonneg pr x y θf γ hQ hθ0 (x.length - 2)))
    (add_nonneg
      (add_nonneg (mul_nonneg (hx0 (x.length - 1) (by omega)) (hθ0 (x.length - 1)))
        (by simp))
      (mul_nonneg (hy0 (x.length - 1) (by omega)) (by omega)))
  rw [modEq_iff_zmod hQ]
  have hrc := (modEq_iff_zmod hQ _ _).mp (rEntry_congr pr x y θf γ (x.length - 2))
  rw [show x.length - 2 + 1 = x.length - 1 from by omega,
    show x.length - (x.length - 2) - 1 = 1 from by omega, pow_one] at hrc
  push_cast at hrc
  have hIl := (modEq_iff_zmod hQ _ _).mp
    (bezoutA_inv (sufProd_nonneg hx0 (x.length - 1)) hQ.le
      (sufProd_coprime (fun j h1 h2 => hxco j (by omega) h2)))
  push_cast at hIl
  have hsyli : sufProd y (x.length - 1) = y.getD (x.length - 1) 0 := by
    rw [sufProd_cons (show x.length - 1 < y.length by omega),
      show x.length - 1 + 1 = x.length from by omega,
      sufProd_all (show y.length ≤ x.length by omega), mul_one]
  have hsyl := congrArg (fun t : ℤ => (t : ZMod pr.Q.toNat)) hsyli
  push_cast at hsyl
  have hsxli : sufProd x (x.length - 1) = x.getD (x.length - 1) 0 := by
    rw [sufProd_cons (show x.length - 1 < x.length by omega),
      show x.length - 1 + 1 = x.length from by omega, sufProd_all le_rfl, mul_one]
  have hsxl := congrArg (fun t : ℤ => (t : ZMod pr.Q.toNat)) hsxli
  push_cast at hsxl
  have hQz : ((pr.Q : ℤ) : ZMod pr.Q.toNat) = 0 := by
    rw [ZMod.intCast_zmod_eq_zero_iff_dvd]
    exact ⟨1, by rw [mul_one]; omega⟩
  have hwl : (x.getD (x.length - 1) 0 : ZMod pr.Q.toNat) *
      (bezoutA (sufProd x (x.length - 1)) pr.Q : ℤ) = 1 := by
    push_cast
    linear_combination
      (-(bezoutA (sufProd x (x.length - 1)) pr.Q : ZMod pr.Q.toNat)) * hsxl + hIl
  have hkeyl : (x.getD (x.length - 1) 0 : ZMod pr.Q.toNat) *
        (sufProd y (x.length - 1) : ℤ) *
        (bezoutA (sufProd x (x.length - 1)) pr.Q : ℤ)
      = (y.getD (x.length - 1) 0 : ZMod pr.Q.toNat) := by
    push_cast
    push_cast at hwl
    linear_combination (x.getD (x.length - 1) 0 : ZMod pr.Q.toNat) *
        (bezoutA (sufProd x (x.length - 1)) pr.Q : ZMod pr.Q.toNat) * hsyl
      + (y.getD (x.length - 1) 0 : ZMod pr.Q.toNat) * hwl
  push_cast
  push_cast at hkeyl
  linear_combination (x.getD (x.length - 1) 0 : ZMod pr.Q.toNat) * hrc
    - (y.getD (x.length - 1) 0 : ZMod pr.Q.toNat) * hQz
    - (γ : ZMod pr.Q.toNat) * hkeyl

/-- For a prime `Q`, a value in `[1, Q-1]` is coprime to `Q`. -/
theorem gcd_eq_one_of_prime {q a : Int} (hq : Nat.Prime q.toNat)
    (h1 : 1 ≤ a) (h2 : a ≤ q - 1) : Int.gcd a q = 1 := by
  have hq2 : 2 ≤ q := by
    have := hq.two_le
    omega
  have hgnat : Int.gcd a q ∣ q.toNat := by
    show a.natAbs.gcd q.natAbs ∣ q.toNat
    rw [show q.natAbs = q.toNat from by omega]
    exact Nat.gcd_dvd_right _ _
  rcases hq.eq_one_or_self_of_dvd _ hgnat with h | h
  · exact h
  · exfalso
    have hdvd : (Int.gcd a q : ℤ) ∣ a := Int.gcd_dvd_left
    rw [h] at hdvd
    have : (q.toNat : ℤ) = q := by omega
    rw [this] at hdvd
    have := Int.le_of_dvd (by omega) hdvd
    omega

theorem map_pubEl_getD (pr : KeyParameters) (l : List Int) {i : Nat}
    (hi : i < l.length) :
    (l.map (pubEl pr)).getD i 0 = powMod pr.G (l.getD i 0) pr.P := by
  rw [List.getD_eq_getElem?_getD, List.getElem?_map, List.getElem?_eq_getElem hi]
  show pubEl pr l[i] = _
  rw [List.getD_eq_getElem?_getD, List.getElem?_eq_getElem hi]
  rfl

/-- Core completeness: an honest ILMP run on coprime non-negative honest
exponents with equal products accepts, for every choice of the sampled
blinding exponents and challenge. -/
theorem ilmp_run_complete (pr : KeyParameters) (x y X Y θs : List Int) (γ : Int)
    (hQ : 0 < pr.Q) (hord : pr.G ^ pr.Q.toNat % pr.P = 1 % pr.P)
    (hN : 2 ≤ x.length) (hxy : y.length = x.length)
    (hXx : X.length = x.length) (hYx : Y.length = x.length)
    (hXel : ∀ i, i < x.length → X.getD i 0 = powMod pr.G (x.getD i 0) pr.P)
    (hYel : ∀ i, i < x.length → Y.getD i 0 = powMod pr.G (y.getD i 0) pr.P)
    (hx0 : ∀ i, i < x.length → 0 ≤ x.getD i 0)
    (hy0 : ∀ i, i < x.length → 0 ≤ y.getD i 0)
    (hxco : ∀ i, 1 ≤ i → i < x.length → Int.gcd (x.getD i 0) pr.Q = 1)
    (hθlen : θs.length = x.length - 1)
    (hθels : ∀ i, i < θs.length → 0 ≤ θs.getD i 0)
    (hγ0 : 0 ≤ γ) (hγQ : γ ≤ pr.Q)
    (hprod : x.prod ≡ y.prod [ZMOD pr.Q]) :
    ILMPRun pr x y X Y θs γ = .ok true := by
  have hθ0 : ∀ i, 0 ≤ (thetaFull θs).getD i 0 := thetaFull_nonneg θs hθels
  have hθfirst : (thetaFull θs).getD 0 0 = 0 := thetaFull_getD_zero θs
  have hθlast : (thetaFull θs).getD x.length 0 = 0 := by
    rw [show x.length = θs.length + 1 from by omega]
    exact thetaFull_getD_last θs
  have hEqs : ilmpEqs pr X Y (ilmpA pr x y (thetaFull θs)) γ
      (ilmpR pr x y (thetaFull θs) γ) := by
    refine ⟨?_, ?_, ?_⟩
    · exact honest_first_eq pr x y X Y (thetaFull θs) γ hQ hord hN hxy hXx hXel hYel
        hx0 hy0 hxco hθ0 hθfirst hγ0 hγQ hprod
    · intro i hi
      rw [hXx] at hi
      exact honest_middle_eq pr x y X Y (thetaFull θs) γ hQ hord hN hxy hXel hYel
        hx0 hy0 hxco hθ0 hγ0 (by omega) (by omega)
    · exact honest_last_eq pr x y X Y (thetaFull θs) γ hQ hord hN hxy hXx hXel hYel
        hx0 hy0 hxco hθ0 hθlast hγ0 hγQ
  unfold ILMPRun
  rw [if_neg (by omega)]
  unfold ILMPVerify
  rw [if_neg (by omega)]
  have hchar := ilmpCheck_char pr X Y (ilmpA pr x y (thetaFull θs))
    (ilmpR pr x y (thetaFull θs) γ) γ (by omega)
    (by omega) (by rw [ilmpA_length]; omega)
    (by rw [ilmpR_length pr x y (thetaFull θs) γ hxy]; omega)
  show (match ilmpCheck pr X Y (ilmpA pr x y (thetaFull θs)) γ
      (ilmpR pr x y (thetaFull θs) γ) with
    | none => RunResult.crashed
    | some b => RunResult.ok b) = RunResult.ok true
  rw [hchar, if_pos hEqs]

/-- C1 (amended): for every `N ≥ 2` and honest secret exponent sequences
`x, y` (entries in `[1, Q-1]`, `Q` prime) with `∏ x_i ≡ ∏ y_i (mod Q)` and
public inputs `X_i = G^{x_i} mod P`, `Y_i = G^{y_i} mod P`, an honest run
of `ILMPProve` against `ILMPVerify` — for every value of the sampled
blinding exponents `θ` and every sampled challenge `γ` — completes without
error or panic and the verifier returns `true`.  (The claim's `N = 1` case
is false on the code: the verifier indexes the empty response slice and
panics — see the counterexample.) -/
theorem ilmp_completeness (pr : KeyParameters) (x y θs : List Int) (γ : Int)
    (hQp : Nat.Prime pr.Q.toNat) (hQ : 0 < pr.Q)
    (hord : pr.G ^ pr.Q.toNat % pr.P = 1 % pr.P)
    (hN : 2 ≤ x.length) (hxy : y.length = x.length)
    (hx : ∀ i, i < x.length → 1 ≤ x.getD i 0 ∧ x.getD i 0 ≤ pr.Q - 1)
    (hy : ∀ i, i < x.length → 1 ≤ y.getD i 0 ∧ y.getD i 0 ≤ pr.Q - 1)
    (hθlen : θs.length = x.length - 1)
    (hθels : ∀ i, i < θs.length → 1 ≤ θs.getD i 0 ∧ θs.getD i 0 ≤ pr.Q - 1)
    (hγ1 : 1 ≤ γ) (hγQ : γ ≤ pr.Q - 1)
    (hprod : x.prod ≡ y.prod [ZMOD pr.Q]) :
    ILMPRun pr x y (x.map (pubEl pr)) (y.map (pubEl pr)) θs γ = .ok true := by
  apply ilmp_run_complete pr x y _ _ θs γ hQ hord hN hxy
    (by rw [List.length_map]) (by rw [List.length_map]; omega)
    (fun i hi => map_pubEl_getD pr x hi)
    (fun i hi => map_pubEl_getD pr y (by omega))
    (fun i hi => by have := hx i hi; omega)
    (fun i hi => by have := hy i hi; omega)
    (fun i h1 h2 => gcd_eq_one_of_prime hQp (hx i h2).1 (hx i h2).2)
    hθlen (fun i hi => by have := hθels i hi; omega)
    (by omega) (by omega) hprod

/-- Witness for C1 at `N = 2`: `x = y = [3, 4]`, `θ = [5]`, `γ = 7` in the
`(23, 2, 11)` group. -/
theorem ilmp_completeness_witness :
    (Nat.Prime (11 : Int).toNat ∧ (0:Int) < 11 ∧
      (2:Int) ^ (11:Int).toNat % 23 = 1 % 23 ∧
      2 ≤ ([3, 4] : List Int).length ∧
      ([3, 4] : List Int).prod ≡ ([3, 4] : List Int).prod [ZMOD (11:Int)]) ∧
    ILMPRun ⟨23, 2, 11⟩ [3, 4] [3, 4] ([3, 4].map (pubEl ⟨23, 2, 11⟩))
      ([3, 4].map (pubEl ⟨23, 2, 11⟩)) [5] 7 = .ok true :=
  ⟨by decide,
    ilmp_completeness ⟨23, 2, 11⟩ [3, 4] [3, 4] [5] 7 (by decide) (by decide)
      (by decide) (by decide) (by decide) (by decide) (by decide) (by decide)
      (by decide) (by decide) (by decide) (by decide)⟩

/-- C1 counterexample: at `N = 1` — with honest inputs satisfying every
hypothesis of the claim (`x = y = [3]`, so `∏x ≡ ∏y (mod Q)`, and
`X = [G^3 mod P]`, `Y = [G^3 mod P]`) — the honest run does not accept:
the verifier reads `r[0]` of the empty response slice and panics, instead
of skipping the non-existent response indices and accepting. -/
theorem ilmp_n1_panics :
    ILMPRun ⟨23, 2, 11⟩ [3] [3] ([3].map (pubEl ⟨23, 2, 11⟩))
      ([3].map (pubEl ⟨23, 2, 11⟩)) [] 5 = .crashed ∧
    RunResult.crashed ≠ RunResult.ok true := by
  refine ⟨by decide, by decide⟩

/-! ### Shuffle0 (`shuffle.go` lines 224-305)

The prover's `2N`-extension (P1 of `Shuffle0Prove`) and the verifier's
independently computed public extension (`Shuffle0Verify`), followed by one
ILMP run. -/

/-- Prover extension `φ`: `φ_i = x_i - d·t mod Q`, `φ_{N+i} = c`. -/
def shuffle0Phi (pr : KeyParameters) (x : List Int) (c d t : Int) : List Int :=
  (List.range x.length).map (fun i => (x.getD i 0 - d * t) % pr.Q)
    ++ List.replicate x.length c

/-- Prover extension `ψ`: `ψ_i = y_i - c·t mod Q`, `ψ_{N+i} = d`. -/
def shuffle0Psi (pr : KeyParameters) (y : List Int) (c d t : Int) : List Int :=
  (List.range y.length).map (fun i => (y.getD i 0 - c * t) % pr.Q)
    ++ List.replicate y.length d

/-- Verifier extension `Φ`: `Φ_i = X_i · (D^t)⁻¹ mod P` (inverse via GCD),
`Φ_{N+i} = C`. -/
def shuffle0PhiV (pr : KeyParameters) (X : List Int) (Cc Dd t : Int) : List Int :=
  (List.range X.length).map
      (fun i => X.getD i 0 * bezoutA (powMod Dd t pr.P) pr.P % pr.P)
    ++ List.replicate X.length Cc

/-- Verifier extension `Ψ`: `Ψ_i = Y_i · (C^t)⁻¹ mod P`, `Ψ_{N+i} = D`. -/
def shuffle0PsiV (pr : KeyParameters) (Y : List Int) (Cc Dd t : Int) : List Int :=
  (List.range Y.length).map
      (fun i => Y.getD i 0 * bezoutA (powMod Cc t pr.P) pr.P % pr.P)
    ++ List.replicate Y.length Dd

/-- An honest Shuffle0 run: both length checks, then the inner ILMP run on
the extended instance, with `t` the verifier's sampled challenge, `θs` the
prover's sampled blinding exponents and `γ` the inner ILMP challenge. -/
def Shuffle0Run (pr : KeyParameters) (x y : List Int) (c d : Int)
    (X Y : List Int) (Cc Dd t : Int) (θs : List Int) (γ : Int) : RunResult :=
  if x.length ≠ y.length then .errLen
  else if X.length ≠ Y.length then .errLen
  else ILMPRun pr (shuffle0Phi pr x c d t) (shuffle0Psi pr y c d t)
    (shuffle0PhiV pr X Cc Dd t) (shuffle0PsiV pr Y Cc Dd t) θs γ

theorem getD_append_left {l1 l2 : List Int} {i : Nat} (h : i < l1.length) :
    (l1 ++ l2).getD i 0 = l1.getD i 0 := by
  rw [List.getD_eq_getElem?_getD, List.getD_eq_getElem?_getD,
    List.getElem?_append, if_pos h]

theorem getD_append_right {l1 l2 : List Int} {i : Nat} (h : l1.length ≤ i) :
    (l1 ++ l2).getD i 0 = l2.getD (i - l1.length) 0 := by
  rw [List.getD_eq_getElem?_getD, List.getD_eq_getElem?_getD,
    List.getElem?_append_right h]

theorem getD_map_range {f : Nat → Int} {n i : Nat} (h : i < n) :
    ((List.range n).map f).getD i 0 = f i := by
  rw [List.getD_eq_getElem?_getD, List.getElem?_map, List.getElem?_range h]
  rfl

theorem shuffle0Phi_length (pr : KeyParameters) (x : List Int) (c d t : Int) :
    (shuffle0Phi pr x c d t).length = 2 * x.length := by
  unfold shuffle0Phi
  rw [List.length_append, List.length_map, List.length_range, List.length_replicate]
  omega

theorem shuffle0Psi_length (pr : KeyParameters) (y : List Int) (c d t : Int) :
    (shuffle0Psi pr y c d t).length = 2 * y.length := by
  unfold shuffle0Psi
  rw [List.length_append, List.length_map, List.length_range, List.length_replicate]
  omega

theorem shuffle0PhiV_length (pr : KeyParameters) (X : List Int) (Cc Dd t : Int) :
    (shuffle0PhiV pr X Cc Dd t).length = 2 * X.length := by
  unfold shuffle0PhiV
  rw [List.length_append, List.length_map, List.length_range, List.length_replicate]
  omega

theorem shuffle0PsiV_length (pr : KeyParameters) (Y : List Int) (Cc Dd t : Int) :
    (shuffle0PsiV pr Y Cc Dd t).length = 2 * Y.length := by
  unfold shuffle0PsiV
  rw [List.length_append, List.length_map, List.length_range, List.length_replicate]
  omega

/-- Two integers congruent mod `n`, both in `[0, n)`, are equal. -/
theorem eq_of_modEq_of_range {n a b : Int} (h : a ≡ b [ZMOD n])
    (ha0 : 0 ≤ a) (han : a < n) (hb0 : 0 ≤ b) (hbn : b < n) : a = b := by
  have h1 : a % n = a := Int.emod_eq_of_lt ha0 han
  have h2 : b % n = b := Int.emod_eq_of_lt hb0 hbn
  have h3 : a % n = b % n := h
  omega

/-- The verifier's blinded public element equals the honest public element
of the prover's blinded exponent: `G^a · (G^b)⁻¹ ≡ G^{(a-b) mod Q} (mod P)`. -/
theorem pub_blind (pr : KeyParameters) (a b : Int) (ha : 0 ≤ a) (hb : 0 ≤ b)
    (hQ : 0 < pr.Q) (hP : 0 < pr.P)
    (hord : pr.G ^ pr.Q.toNat % pr.P = 1 % pr.P)
    (hGco : Int.gcd pr.G pr.P = 1) :
    powMod pr.G a pr.P * bezoutA (powMod pr.G b pr.P) pr.P % pr.P
      = powMod pr.G ((a - b) % pr.Q) pr.P := by
  have hφ0 : 0 ≤ (a - b) % pr.Q := Int.emod_nonneg _ (by omega)
  have hUco : Int.gcd (powMod pr.G b pr.P) pr.P = 1 := by
    apply Int.isCoprime_iff_gcd_eq_one.mp
    unfold powMod
    rw [Int.emod_def, sub_eq_add_neg, ← mul_neg]
    exact IsCoprime.add_mul_left_left
      (IsCoprime.pow_left (Int.isCoprime_iff_gcd_eq_one.mpr hGco)) _
  have hbez := bezoutA_inv (powMod_nonneg pr.G b hP) hP.le hUco
  have hcongr : powMod pr.G a pr.P = powMod pr.G ((a - b) % pr.Q + b) pr.P := by
    apply powMod_congr hQ hord ha (by omega)
    have h1 : (a - b) % pr.Q ≡ a - b [ZMOD pr.Q] := Int.emod_emod _ _
    have := h1.add_right b
    simpa using this.symm
  apply eq_of_modEq_of_range _ (Int.emod_nonneg _ (by omega))
    (Int.emod_lt_of_pos _ hP) (powMod_nonneg _ _ hP) (powMod_lt _ _ hP)
  show powMod pr.G a pr.P * bezoutA (powMod pr.G b pr.P) pr.P % pr.P
    ≡ powMod pr.G ((a - b) % pr.Q) pr.P [ZMOD pr.P]
  rw [modEq_iff_zmod hP]
  have hzred : ∀ z : ℤ, ((z % pr.P : ℤ) : ZMod pr.P.toNat) = (z : ZMod pr.P.toNat) :=
    fun z => (modEq_iff_zmod hP _ _).mp (Int.emod_emod z pr.P)
  have hbezz := (modEq_iff_zmod hP _ _).mp hbez
  rw [show powMod pr.G b pr.P = pr.G ^ b.toNat % pr.P from rfl] at hbezz
  push_cast at hbezz
  rw [hzred] at hbezz
  have hcongrz := congrArg (fun v : ℤ => (v : ZMod pr.P.toNat)) hcongr
  rw [show powMod pr.G a pr.P = pr.G ^ a.toNat % pr.P from rfl,
    show powMod pr.G ((a - b) % pr.Q + b) pr.P
      = pr.G ^ ((a - b) % pr.Q + b).toNat % pr.P from rfl,
    toNat_add_of_nonneg hφ0 hb, pow_add] at hcongrz
  push_cast at hcongrz
  rw [hzred, hzred] at hcongrz
  rw [hzred, show powMod pr.G a pr.P = pr.G ^ a.toNat % pr.P from rfl,
    show powMod pr.G ((a - b) % pr.Q) pr.P
      = pr.G ^ ((a - b) % pr.Q).toNat % pr.P from rfl]
  push_cast
  rw [hzred, hzred]
  push_cast at hbezz hcongrz ⊢
  rw [show powMod pr.G b pr.P = pr.G ^ b.toNat % pr.P from rfl]
  linear_combination ((bezoutA (pr.G ^ b.toNat % pr.P) pr.P : ℤ) : ZMod pr.P.toNat)
      * hcongrz
    + ((pr.G : ZMod pr.P.toNat) ^ ((a - b) % pr.Q).toNat) * hbezz

/-- Product congruence for elementwise-related head sequences:
`d^n · ∏ g ≡ c^n · ∏ f (mod Q)` when `d·g i ≡ c·f i` for each `i < n`. -/
theorem prod_congr_of_rel (Q c d : Int) (n : Nat) (f g : Nat → Int)
    (h : ∀ i, i < n → d * g i ≡ c * f i [ZMOD Q]) :
    d ^ n * ((List.range n).map g).prod
      ≡ c ^ n * ((List.range n).map f).prod [ZMOD Q] := by
  induction n with
  | zero => rfl
  | succ n ih =>
    rw [List.range_succ, List.map_append, List.map_append, List.prod_append,
      List.prod_append]
    have h1 := ih (fun i hi => h i (by omega))
    have h2 := h n (by omega)
    have h3 := h1.mul h2
    calc d ^ (n+1) * (((List.range n).map g).prod * ([n].map g).prod)
        = (d ^ n * ((List.range n).map g).prod) * (d * ([n].map g).prod) := by ring
      _ ≡ (c ^ n * ((List.range n).map f).prod) * (c * ([n].map f).prod) [ZMOD Q] := by
          have h2' : d * ([n].map g).prod ≡ c * ([n].map f).prod [ZMOD Q] := by
            simpa using h2
          exact h1.mul h2'
      _ = c ^ (n+1) * (((List.range n).map f).prod * ([n].map f).prod) := by ring

/-- C2 (amended): for `N ≥ 1`, scalars `c, d ∈ [1, Q-1]`, honest secrets
`x` with `y_i = x_i·c·d⁻¹ mod Q` (stated as `y_i·d ≡ x_i·c (mod Q)`),
public `X_i = G^{x_i}`, `Y_i = G^{y_i}`, `C = G^c`, `D = G^d` (mod `P`),
and every sampled `t` such that `x_j ≢ d·t (mod Q)` for all `j ≥ 1` (the
indices whose suffix products the inner ILMP prover must invert), an
honest Shuffle0 run completes without error and the verifier returns
`true`, the prover forming the `2N`-extension `φ, ψ` and the verifier
independently forming `Φ, Ψ`.  (Without the restriction on `t` the claim
is false — see the counterexample, where `x_1 ≡ d·t` makes the run return
`false`.) -/
theorem shuffle0_completeness (pr : KeyParameters) (x y θs : List Int)
    (c d t γ : Int)
    (hQp : Nat.Prime pr.Q.toNat) (hQ : 0 < pr.Q) (hP : 0 < pr.P)
    (hord : pr.G ^ pr.Q.toNat % pr.P = 1 % pr.P)
    (hGco : Int.gcd pr.G pr.P = 1)
    (hN : 1 ≤ x.length) (hxy : y.length = x.length)
    (hc1 : 1 ≤ c) (hcQ : c ≤ pr.Q - 1) (hd1 : 1 ≤ d) (hdQ : d ≤ pr.Q - 1)
    (hx0 : ∀ i, i < x.length → 0 ≤ x.getD i 0)
    (hy0 : ∀ i, i < x.length → 0 ≤ y.getD i 0)
    (hyrel : ∀ i, i < x.length → y.getD i 0 * d ≡ x.getD i 0 * c [ZMOD pr.Q])
    (ht1 : 1 ≤ t) (htQ : t ≤ pr.Q - 1)
    (hbad : ∀ j, 1 ≤ j → j < x.length → ¬ ((pr.Q : Int) ∣ (x.getD j 0 - d * t)))
    (hθlen : θs.length = 2 * x.length - 1)
    (hθels : ∀ i, i < θs.length → 0 ≤ θs.getD i 0)
    (hγ1 : 1 ≤ γ) (hγQ : γ ≤ pr.Q - 1) :
    Shuffle0Run pr x y c d (x.map (pubEl pr)) (y.map (pubEl pr))
      (pubEl pr c) (pubEl pr d) t θs γ = .ok true := by
  have hφlen := shuffle0Phi_length pr x c d t
  have hψlen := shuffle0Psi_length pr y c d t
  have hΦlen := shuffle0PhiV_length pr (x.map (pubEl pr)) (pubEl pr c) (pubEl pr d) t
  have hΨlen := shuffle0PsiV_length pr (y.map (pubEl pr)) (pubEl pr c) (pubEl pr d) t
  rw [List.length_map] at hΦlen hΨlen
  unfold Shuffle0Run
  rw [if_neg (by omega), if_neg (by rw [List.length_map, List.length_map]; omega)]
  refine ilmp_run_complete pr _ _ _ _ θs γ hQ hord (by omega) (by omega)
    (by omega) (by omega) ?_ ?_ ?_ ?_ ?_ (by omega)
    hθels (by omega) (by omega) ?_
  · -- Φ elementwise honest
    intro i hi
    rw [hφlen] at hi
    by_cases hiN : i < x.length
    · unfold shuffle0PhiV shuffle0Phi
      rw [getD_append_left (by rw [List.length_map, List.length_range, List.length_map]; omega),
        getD_append_left (by rw [List.length_map, List.length_range]; omega),
        getD_map_range (by rw [List.length_map]; omega), getD_map_range hiN,
        map_pubEl_getD pr x hiN]
      have hDt : powMod (pubEl pr d) t pr.P = powMod pr.G (d * t) pr.P :=
        powMod_pow (by omega) (by omega)
      rw [hDt]
      exact pub_blind pr (x.getD i 0) (d * t) (hx0 i hiN)
        (by positivity) hQ hP hord hGco
    · unfold shuffle0PhiV shuffle0Phi
      rw [getD_append_right (by rw [List.length_map, List.length_range, List.length_map]; omega),
        getD_append_right (by rw [List.length_map, List.length_range]; omega)]
      simp only [List.length_map, List.length_range]
      rw [getD_replicate (show i - x.length < x.length by omega),
        getD_replicate (show i - x.length < x.length by omega)]
      rfl
  · -- Ψ elementwise honest
    intro i hi
    rw [hφlen] at hi
    by_cases hiN : i < x.length
    · unfold shuffle0PsiV shuffle0Psi
      rw [getD_append_left (by rw [List.length_map, List.length_range, List.length_map]; omega),
        getD_append_left (by rw [List.length_map, List.length_range]; omega),
        getD_map_range (by rw [List.length_map]; omega),
        getD_map_range (show i < y.length by omega),
        map_pubEl_getD pr y (show i < y.length by omega)]
      have hCt : powMod (pubEl pr c) t pr.P = powMod pr.G (c * t) pr.P :=
        powMod_pow (by omega) (by omega)
      rw [hCt]
      exact pub_blind pr (y.getD i 0) (c * t) (hy0 i (by omega))
        (by positivity) hQ hP hord hGco
    · unfold shuffle0PsiV shuffle0Psi
      rw [getD_append_right (by rw [List.length_map, List.length_range, List.length_map]; omega),
        getD_append_right (by rw [List.length_map, List.length_range]; omega)]
      simp only [List.length_map, List.length_range]
      rw [getD_replicate (show i - y.length < y.length by omega),
        getD_replicate (show i - y.length < y.length by omega)]
      rfl
  · -- φ entries non-negative
    intro i hi
    rw [hφlen] at hi
    by_cases hiN : i < x.length
    · unfold shuffle0Phi
      rw [getD_append_left (by rw [List.length_map, List.length_range]; omega),
        getD_map_range hiN]
      exact Int.emod_nonneg _ (by omega)
    · unfold shuffle0Phi
      rw [getD_append_right (by rw [List.length_map, List.length_range]; omega),
        List.length_map, List.length_range,
        getD_replicate (show i - x.length < x.length by omega)]
      omega
  · -- ψ entries non-negative
    intro i hi
    rw [hφlen] at hi
    by_cases hiN : i < y.length
    · unfold shuffle0Psi
      rw [getD_append_left (by rw [List.length_map, List.length_range]; omega),
        getD_map_range hiN]
      exact Int.emod_nonneg _ (by omega)
    · unfold shuffle0Psi
      rw [getD_append_right (by rw [List.length_map, List.length_range]; omega),
        List.length_map, List.length_range,
        getD_replicate (show i - y.length < y.length by omega)]
      omega
  · -- φ entries at positive indices are coprime to Q
    intro i hi1 hi2
    rw [hφlen] at hi2
    by_cases hiN : i < x.length
    · unfold shuffle0Phi
      rw [getD_append_left (by rw [List.length_map, List.length_range]; omega),
        getD_map_range hiN]
      have hnz : (x.getD i 0 - d * t) % pr.Q ≠ 0 := by
        intro hz
        exact hbad i hi1 hiN (Int.dvd_of_emod_eq_zero hz)
      have h0 : 0 ≤ (x.getD i 0 - d * t) % pr.Q := Int.emod_nonneg _ (by omega)
      have hlt : (x.getD i 0 - d * t) % pr.Q < pr.Q := Int.emod_lt_of_pos _ hQ
      exact gcd_eq_one_of_prime hQp (by omega) (by omega)
    · unfold shuffle0Phi
      rw [getD_append_right (by rw [List.length_map, List.length_range]; omega),
        List.length_map, List.length_range,
        getD_replicate (show i - x.length < x.length by omega)]
      exact gcd_eq_one_of_prime hQp hc1 hcQ
  · -- the extended products are congruent mod Q
    have hrel : ∀ i, i < x.length →
        d * ((y.getD i 0 - c * t) % pr.Q) ≡ c * ((x.getD i 0 - d * t) % pr.Q)
          [ZMOD pr.Q] := by
      intro i hi
      have h1 : (y.getD i 0 - c * t) % pr.Q ≡ y.getD i 0 - c * t [ZMOD pr.Q] :=
        Int.emod_emod _ _
      have h2 : (x.getD i 0 - d * t) % pr.Q ≡ x.getD i 0 - d * t [ZMOD pr.Q] :=
        Int.emod_emod _ _
      calc d * ((y.getD i 0 - c * t) % pr.Q)
          ≡ d * (y.getD i 0 - c * t) [ZMOD pr.Q] := h1.mul_left d
        _ = y.getD i 0 * d - c * d * t := by ring
        _ ≡ x.getD i 0 * c - c * d * t [ZMOD pr.Q] := (hyrel i hi).sub_right _
        _ = c * (x.getD i 0 - d * t) := by ring
        _ ≡ c * ((x.getD i 0 - d * t) % pr.Q) [ZMOD pr.Q] := (h2.mul_left c).symm
    have hpc := prod_congr_of_rel pr.Q c d x.length
      (fun i => (x.getD i 0 - d * t) % pr.Q)
      (fun i => (y.getD i 0 - c * t) % pr.Q) hrel
    unfold shuffle0Phi shuffle0Psi
    rw [List.prod_append, List.prod_append, List.prod_replicate,
      List.prod_replicate, hxy]
    calc ((List.range x.length).map (fun i => (x.getD i 0 - d * t) % pr.Q)).prod
          * c ^ x.length
        = c ^ x.length *
          ((List.range x.length).map (fun i => (x.getD i 0 - d * t) % pr.Q)).prod := by
          ring
      _ ≡ d ^ x.length *
          ((List.range x.length).map (fun i => (y.getD i 0 - c * t) % pr.Q)).prod
          [ZMOD pr.Q] := hpc.symm
      _ = ((List.range x.length).map (fun i => (y.getD i 0 - c * t) % pr.Q)).prod
          * d ^ x.length := by ring

/-- Witness for C2 at `N = 1`: `x = [3]`, `c = 2`, `d = 1`, `y = [6]`,
`t = 1`, `θ = [4]`, `γ = 5` in the `(23, 2, 11)` group. -/
theorem shuffle0_completeness_witness :
    (Nat.Prime (11 : Int).toNat ∧ (0:Int) < 11 ∧ (0:Int) < 23 ∧
      (2:Int) ^ (11:Int).toNat % 23 = 1 % 23 ∧ Int.gcd 2 23 = 1 ∧
      (6 : Int) * 1 ≡ 3 * 2 [ZMOD (11:Int)]) ∧
    Shuffle0Run ⟨23, 2, 11⟩ [3] [6] 2 1 ([3].map (pubEl ⟨23, 2, 11⟩))
      ([6].map (pubEl ⟨23, 2, 11⟩)) (pubEl ⟨23, 2, 11⟩ 2) (pubEl ⟨23, 2, 11⟩ 1)
      1 [4] 5 = .ok true :=
  ⟨by decide,
    shuffle0_completeness ⟨23, 2, 11⟩ [3] [6] [4] 2 1 1 5 (by decide) (by decide)
      (by decide) (by decide) (by decide) (by decide) (by decide) (by decide)
      (by decide) (by decide) (by decide) (by decide) (by decide)
      (by decide) (by decide) (by decide)
      (by intro j h1 h2; simp only [List.length_singleton] at h2; omega)
      (by decide) (by decide) (by decide) (by decide)⟩

/-- C2 counterexample: with `N = 2`, `x = [2, 1]`, `c = d = 1` (so
`y = [2, 1]` satisfies `y_i = x_i·c·d⁻¹ mod Q`), honest publics, and the
sampled values `t = 1` (for which `x_1 = d·t`), `θ = [1, 1, 1]`, `γ = 1`
— all within the ranges the claim allows — the honest Shuffle0 run
returns `false` rather than `true`: the inner ILMP prover cannot invert
the suffix product containing `x_1 - d·t ≡ 0 (mod Q)`. -/
theorem shuffle0_bad_t_rejects :
    Shuffle0Run ⟨23, 2, 11⟩ [2, 1] [2, 1] 1 1 ([2, 1].map (pubEl ⟨23, 2, 11⟩))
      ([2, 1].map (pubEl ⟨23, 2, 11⟩)) (pubEl ⟨23, 2, 11⟩ 1) (pubEl ⟨23, 2, 11⟩ 1)
      1 [1, 1, 1] 1 = .ok false ∧
    RunResult.ok false ≠ RunResult.ok true := by
  refine ⟨by decide, by decide⟩

end Shuffle
